import Mathlib

/-!
Verification of the gringo node (Go implementation of a Grin/Mimblewimble
full node) against its natural-language specification.

The development shallowly embeds the relevant Go functions:
`byte` sequences become `List Nat` (each entry is a byte value),
unsigned machine integers become `Nat` carried with explicit bounds,
`int64` values become `Int`, fallible Go functions (`error` results or
`io` failures) become `Option`/`Except`, and `logrus.Fatal`/runtime panics
become `none` in an `Option`-valued result.  External collaborators that
are not part of the repository (the blake2b hash, the cuckoo verifier,
the bulletproofs point/proof codecs) are passed in as explicit function
parameters or modelled from the specification, as noted at each site.
-/

namespace Gringo

/-- Byte sequences on the wire: each entry is one byte value. -/
abbrev Bytes := List Nat

/-! ## Big-endian integer serialization (Go `encoding/binary`, BigEndian) -/

/-- Little-endian byte decomposition of `v` into `w` bytes (helper). -/
def bytesLE : Nat → Nat → Bytes
  | 0, _ => []
  | w + 1, v => v % 256 :: bytesLE w (v / 256)

/-- Big-endian encoding of `v` in exactly `w` bytes, as Go
`binary.Write(..., binary.BigEndian, v)` does for a `w`-byte unsigned
integer (the value is reduced modulo `2^(8*w)`, which is a no-op for a
value of the corresponding Go machine type). -/
def beBytes (w v : Nat) : Bytes := (bytesLE w v).reverse

/-- Value of a little-endian byte list (helper). -/
def valLE : Bytes → Nat
  | [] => 0
  | b :: bs => b + 256 * valLE bs

/-- Value of a big-endian byte list, as Go `binary.BigEndian.Uint64` and
friends compute it. -/
def beVal (l : Bytes) : Nat := valLE l.reverse

theorem length_bytesLE (w v : Nat) : (bytesLE w v).length = w := by
  induction w generalizing v with
  | zero => rfl
  | succ w ih => simp [bytesLE, ih]

theorem length_beBytes (w v : Nat) : (beBytes w v).length = w := by
  simp [beBytes, length_bytesLE]

theorem mod_mul_256 (v M : Nat) (hM : 0 < M) :
    v % (256 * M) = v % 256 + 256 * (v / 256 % M) := by
  have hq : v / 256 % M < M := Nat.mod_lt _ hM
  have hr : v % 256 < 256 := Nat.mod_lt _ (by norm_num)
  have hlt : 256 * (v / 256 % M) + v % 256 < 256 * M := by
    have : 256 * (v / 256 % M) + 256 ≤ 256 * M := by
      have := Nat.succ_le_of_lt hq
      calc 256 * (v / 256 % M) + 256 = 256 * (v / 256 % M + 1) := by ring
        _ ≤ 256 * M := Nat.mul_le_mul_left _ this
    omega
  conv_lhs => rw [← Nat.div_add_mod v 256]
  rw [Nat.add_mod, Nat.mul_mod_mul_left,
    Nat.mod_eq_of_lt (show v % 256 < 256 * M by
      calc v % 256 < 256 := hr
        _ ≤ 256 * M := Nat.le_mul_of_pos_right _ hM),
    Nat.mod_eq_of_lt hlt]
  omega

theorem valLE_bytesLE (w v : Nat) : valLE (bytesLE w v) = v % 2 ^ (8 * w) := by
  induction w generalizing v with
  | zero => simp [bytesLE, valLE, Nat.mod_one]
  | succ w ih =>
    have h256 : (2 : Nat) ^ (8 * (w + 1)) = 256 * 2 ^ (8 * w) := by
      rw [Nat.mul_add, Nat.pow_add]; ring
    rw [bytesLE, valLE, ih, h256,
      mod_mul_256 v (2 ^ (8 * w)) (Nat.pos_pow_of_pos _ (by norm_num))]

theorem beVal_beBytes (w v : Nat) : beVal (beBytes w v) = v % 2 ^ (8 * w) := by
  simp [beVal, beBytes, valLE_bytesLE]

theorem beVal_beBytes_of_lt {w v : Nat} (h : v < 2 ^ (8 * w)) :
    beVal (beBytes w v) = v := by
  rw [beVal_beBytes, Nat.mod_eq_of_lt h]

/-! ## Signed 64-bit values (Go `int64`, two's complement, big-endian) -/

/-- Big-endian encoding of an `int64` value, as Go
`binary.Write(..., binary.BigEndian, int64)`: the two's-complement bit
pattern, written as 8 bytes. -/
def encI64 (v : Int) : Bytes := beBytes 8 (v % (2 ^ 64 : Int)).toNat

/-- Interpretation of an unsigned 64-bit value as an `int64`, as Go
`binary.Read` into an `int64` variable does. -/
def decI64 (n : Nat) : Int := if n < 2 ^ 63 then (n : Int) else (n : Int) - 2 ^ 64

theorem length_encI64 (v : Int) : (encI64 v).length = 8 := length_beBytes _ _

theorem decI64_encI64 {v : Int} (hlo : -(2 ^ 63) ≤ v) (hhi : v < 2 ^ 63) :
    decI64 (beVal (encI64 v)) = v := by
  have hmod : (0 : Int) ≤ v % (2 ^ 64 : Int) := Int.emod_nonneg v (by norm_num)
  have hmodlt : v % (2 ^ 64 : Int) < (2 ^ 64 : Int) := Int.emod_lt_of_pos v (by norm_num)
  have hto : ((v % (2 ^ 64 : Int)).toNat : Int) = v % (2 ^ 64 : Int) := Int.toNat_of_nonneg hmod
  have hlt : (v % (2 ^ 64 : Int)).toNat < 2 ^ 64 := by omega
  rw [encI64, beVal_beBytes_of_lt (by simpa using hlt), decI64]
  split <;> omega

/-! ## Stream reading primitives

Go readers consume a stream front to back; we model a stream as the
remaining byte list and each read as `Option (value × remaining)`.
`io.ReadFull` (and `binary.Read` of a fixed-width integer) fails when the
stream holds fewer bytes than requested. -/

/-- Model of `io.ReadFull(r, buf)` for a buffer of `n` bytes. -/
def pBytes (n : Nat) (s : Bytes) : Option (Bytes × Bytes) :=
  if n ≤ s.length then some (s.take n, s.drop n) else none

/-- Model of `binary.Read(r, binary.BigEndian, &x)` for a `uint8`. -/
def pU8 (s : Bytes) : Option (Nat × Bytes) :=
  match pBytes 1 s with
  | none => none
  | some (b, rest) => some (beVal b, rest)

/-- Model of `binary.Read(r, binary.BigEndian, &x)` for a `uint16`. -/
def pU16 (s : Bytes) : Option (Nat × Bytes) :=
  match pBytes 2 s with
  | none => none
  | some (b, rest) => some (beVal b, rest)

/-- Model of `binary.Read(r, binary.BigEndian, &x)` for a `uint32`. -/
def pU32 (s : Bytes) : Option (Nat × Bytes) :=
  match pBytes 4 s with
  | none => none
  | some (b, rest) => some (beVal b, rest)

/-- Model of `binary.Read(r, binary.BigEndian, &x)` for a `uint64`. -/
def pU64 (s : Bytes) : Option (Nat × Bytes) :=
  match pBytes 8 s with
  | none => none
  | some (b, rest) => some (beVal b, rest)

/-- Model of `binary.Read(r, binary.BigEndian, &x)` for an `int64`. -/
def pI64 (s : Bytes) : Option (Int × Bytes) :=
  match pBytes 8 s with
  | none => none
  | some (b, rest) => some (decI64 (beVal b), rest)

theorem pBytes_append {l : Bytes} {n : Nat} (h : l.length = n) (rest : Bytes) :
    pBytes n (l ++ rest) = some (l, rest) := by
  subst h
  simp [pBytes, List.take_left, List.drop_left]

theorem pU8_append {v : Nat} (h : v < 256) (rest : Bytes) :
    pU8 (beBytes 1 v ++ rest) = some (v, rest) := by
  simp only [pU8, pBytes_append (length_beBytes 1 v) rest]
  rw [beVal_beBytes_of_lt (show v < 2 ^ (8 * 1) by simpa using h)]

theorem pU16_append {v : Nat} (h : v < 2 ^ 16) (rest : Bytes) :
    pU16 (beBytes 2 v ++ rest) = some (v, rest) := by
  simp only [pU16, pBytes_append (length_beBytes 2 v) rest]
  rw [beVal_beBytes_of_lt (show v < 2 ^ (8 * 2) by simpa using h)]

theorem pU32_append {v : Nat} (h : v < 2 ^ 32) (rest : Bytes) :
    pU32 (beBytes 4 v ++ rest) = some (v, rest) := by
  simp only [pU32, pBytes_append (length_beBytes 4 v) rest]
  rw [beVal_beBytes_of_lt (show v < 2 ^ (8 * 4) by simpa using h)]

theorem pU64_append {v : Nat} (h : v < 2 ^ 64) (rest : Bytes) :
    pU64 (beBytes 8 v ++ rest) = some (v, rest) := by
  simp only [pU64, pBytes_append (length_beBytes 8 v) rest]
  rw [beVal_beBytes_of_lt (show v < 2 ^ (8 * 8) by simpa using h)]

theorem pI64_append {v : Int} (hlo : -(2 ^ 63) ≤ v) (hhi : v < 2 ^ 63) (rest : Bytes) :
    pI64 (encI64 v ++ rest) = some (v, rest) := by
  simp only [pI64, pBytes_append (length_encI64 v) rest]
  rw [decI64_encI64 hlo hhi]

/-- Read `n` consecutive items with the item reader `p`, as the Go
`for i := 0; i < n; i++` decode loops do. -/
def pCount {α : Type} (p : Bytes → Option (α × Bytes)) : Nat → Bytes → Option (List α × Bytes)
  | 0, s => some ([], s)
  | n + 1, s =>
    match p s with
    | none => none
    | some (a, s1) =>
      match pCount p n s1 with
      | none => none
      | some (as, s2) => some (a :: as, s2)

theorem pCount_append {α : Type} {p : Bytes → Option (α × Bytes)} {enc : α → Bytes}
    (l : List α) (hitem : ∀ a ∈ l, ∀ r : Bytes, p (enc a ++ r) = some (a, r)) (rest : Bytes) :
    pCount p l.length (l.flatMap enc ++ rest) = some (l, rest) := by
  induction l with
  | nil => simp [pCount]
  | cons a as ih =>
    have ha := hitem a (by simp) (as.flatMap enc ++ rest)
    have hih := ih (fun x hx r => hitem x (by simp [hx]) r)
    simp only [List.length_cons, List.flatMap_cons, List.append_assoc, pCount, ha, hih]

/-! ## Lexicographic byte comparison (Go `bytes.Compare`) and `sort.Sort`

`bytes.Compare(a, b) < 0` holds exactly when `a` precedes `b`
lexicographically (with a proper prefix preceding its extensions), which
`bytesLt` computes.  Go `sort.Sort` rearranges a slice into some order
sorted by the provided `Less`; we model it with `List.mergeSort` on the
complement relation, which produces a sorted permutation. -/

/-- Model of `bytes.Compare(a, b) < 0`. -/
def bytesLt : Bytes → Bytes → Bool
  | [], [] => false
  | [], _ :: _ => true
  | _ :: _, [] => false
  | a :: as, b :: bs => if a < b then true else if b < a then false else bytesLt as bs

theorem bytesLt_irrefl (a : Bytes) : bytesLt a a = false := by
  induction a with
  | nil => rfl
  | cons x xs ih => simp [bytesLt, ih]

theorem bytesLt_trichotomy (a b : Bytes) :
    bytesLt a b = true ∨ bytesLt b a = true ∨ a = b := by
  induction a generalizing b with
  | nil => cases b <;> simp [bytesLt]
  | cons x xs ih =>
    cases b with
    | nil => simp [bytesLt]
    | cons y ys =>
      rcases Nat.lt_trichotomy x y with h | h | h
      · left; simp [bytesLt, h]
      · subst h
        rcases ih ys with h2 | h2 | h2
        · left; simp [bytesLt, h2]
        · right; left; simp [bytesLt, h2]
        · right; right; simp [h2]
      · right; left; simp [bytesLt, h]

theorem bytesLt_trans {a b c : Bytes} (hab : bytesLt a b = true)
    (hbc : bytesLt b c = true) : bytesLt a c = true := by
  induction a generalizing b c with
  | nil =>
    cases b with
    | nil => simp [bytesLt] at hab
    | cons y ys => cases c with
      | nil => simp [bytesLt] at hbc
      | cons z zs => simp [bytesLt]
  | cons x xs ih =>
    cases b with
    | nil => simp [bytesLt] at hab
    | cons y ys =>
      cases c with
      | nil => simp [bytesLt] at hbc
      | cons z zs =>
        simp only [bytesLt] at hab hbc ⊢
        by_cases h1 : x < y
        · by_cases h2 : y < z
          · simp [Nat.lt_trans h1 h2]
          · by_cases h3 : z < y
            · simp [h2, h3] at hbc
            · have hyz : y = z := by omega
              subst hyz
              simp [h1]
        · by_cases h1b : y < x
          · simp [h1, h1b] at hab
          · have hxy : x = y := by omega
            subst hxy
            simp only [if_neg (lt_irrefl x)] at hab
            by_cases h2 : x < z
            · simp [h2]
            · by_cases h3 : z < x
              · simp [h2, h3] at hbc
              · have hxz : x = z := by omega
                subst hxz
                simp only [if_neg (lt_irrefl x)] at hbc ⊢
                exact ih hab hbc


theorem bytesLt_asymm {a b : Bytes} (h : bytesLt a b = true) : bytesLt b a = false := by
  by_contra hc
  have hba : bytesLt b a = true := by
    cases hh : bytesLt b a with
    | false => exact absurd hh hc
    | true => rfl
  have := bytesLt_trans h hba
  rw [bytesLt_irrefl] at this
  exact Bool.false_ne_true this

/-- Model of Go `sort.Sort` with the comparator `lt` (`Less`): the result
is a permutation of the input sorted by `lt`.  `sort.Sort` promises
exactly that (it is not stable); `mergeSort` over the complement of `lt`
is one such permutation. -/
def goSort {α : Type} (lt : α → α → Bool) (l : List α) : List α :=
  l.mergeSort (fun a b => ! lt b a)

theorem goSort_perm {α : Type} (lt : α → α → Bool) (l : List α) :
    (goSort lt l).Perm l := List.mergeSort_perm l _

theorem goSort_of_pairwise {α : Type} {lt : α → α → Bool} {l : List α}
    (h : l.Pairwise (fun a b => lt b a = false)) : goSort lt l = l := by
  apply List.mergeSort_of_sorted
  exact h.imp (fun hab => by simp [hab])

/-- Sortedness of the result of `goSort` when the comparator is
`bytes.Compare` on a key: this is how all of the gringo `Less`
implementations are built. -/
theorem goSort_key_sorted {α : Type} (key : α → Bytes) (l : List α) :
    (goSort (fun a b => bytesLt (key a) (key b)) l).Pairwise
      (fun a b => bytesLt (key b) (key a) = false) := by
  have h := @List.sorted_mergeSort α (fun a b : α => ! bytesLt (key b) (key a))
    (fun a b c hab hbc => by
      simp only [Bool.not_eq_true'] at hab hbc ⊢
      by_contra hca
      have hca2 : bytesLt (key c) (key a) = true := by
        cases hh : bytesLt (key c) (key a) with
        | false => exact absurd hh hca
        | true => rfl
      rcases bytesLt_trichotomy (key a) (key b) with h1 | h1 | h1
      · have := bytesLt_trans hca2 h1
        rw [hbc] at this
        exact Bool.false_ne_true this
      · rw [hab] at h1
        simp at h1
      · rw [h1] at hca2
        rw [hbc] at hca2
        exact Bool.false_ne_true hca2)
    (fun a b => by
      rcases bytesLt_trichotomy (key a) (key b) with h1 | h1 | h1
      · simp [bytesLt_asymm h1]
      · simp [bytesLt_asymm h1]
      · simp [h1, bytesLt_irrefl])
    l
  exact h.imp (fun hab => by simpa using hab)

/-! ## Consensus constants (`src/consensus/consensus.go`, `network.go`)

`BlockTimeSec` is declared as the `time.Duration` constant `60`, so all the
derived window constants below are the exact integer values the Go constant
expressions evaluate to. -/

def blockHashSize : Nat := 32

def proofSize : Nat := 42

def minimumDifficulty : Nat := 1

def zeroDifficulty : Nat := 0

def hardForkInterval : Nat := 250000

def medianTimeWindow : Nat := 11

def difficultyAdjustWindow : Nat := 23

def blockTimeSec : Int := 60

def blockTimeWindow : Int := 23 * 60

def upperTimeBound : Int := blockTimeWindow * 4 / 3

def lowerTimeBound : Int := blockTimeWindow * 5 / 6

/-- Value of the `MAXTarget` byte slice `{0xf, 0xff, 0xff, 0xff, 0xff, 0xff, 0xff, 0xff}`. -/
def maxTargetBytes : Bytes := [0xf, 0xff, 0xff, 0xff, 0xff, 0xff, 0xff, 0xff]

/-- Model of `binary.BigEndian.Uint64(MAXTarget)` as computed inside
`Difficulty.FromHash`. -/
def maxTarget : Nat := beVal maxTargetBytes

/-! ## Difficulty from a hash (`src/consensus/difficulty.go`, `FromHash`) -/

/-- Model of `Difficulty.FromHash(hash)`: divides the 64-bit `MAXTarget`
prefix by the first 8 bytes of `hash` read as a big-endian `uint64`.
The Go code guards neither the slice `hash[:8]` (panics when the hash is
shorter than 8 bytes) nor the divisor (`uint64` division panics on zero);
both runtime panics are modelled as `none`. -/
def fromHash (hash : Bytes) : Option Nat :=
  if 8 ≤ hash.length then
    if beVal (hash.take 8) = 0 then none
    else some (maxTarget / beVal (hash.take 8))
  else none

/-! ## Legacy proof of work and header validation (`src/src/consensus/proof.go`)

The repository carries several historical copies of the consensus files;
this section embeds the variant of `Proof`/`BlockHeader.Validate` in
`src/src/consensus/proof.go` that implements the difficulty checks
(`Difficulty ≥ MinimumDifficulty` and `POW.ToDifficulty() ≥ Difficulty`).
The blake2b-256 hash comes from the external `golang.org/x/crypto/blake2b`
package; it is taken as a function parameter `blake`.  Likewise the cuckoo
verification performed by `Proof.Validate` is a separate component of the
repository and enters `Validate` only through its boolean outcome, taken
as the parameter `powOk`. -/

/-- Model of the legacy `Proof.Bytes`: 42 big-endian `uint32` nonces;
`logrus.Fatal` (modelled as `none`) when the nonce list does not hold
exactly `ProofSize` nonces. -/
def legacyProofBytes (nonces : List Nat) : Option Bytes :=
  if nonces.length = proofSize then some (nonces.flatMap (fun n => beBytes 4 n)) else none

/-- Model of the legacy `Proof.ToDifficulty`: `FromHash(blake2b(proof.Bytes()))`. -/
def legacyToDifficulty (blake : Bytes → Bytes) (nonces : List Nat) : Option Nat :=
  match legacyProofBytes nonces with
  | none => none
  | some bs => fromHash (blake bs)

/-- Fields of the legacy `BlockHeader` that `Validate` reads.  The
remaining fields (hashes, roots, nonce, total difficulty) do not
participate in `Validate` and are omitted from this record.  The
timestamp is in Unix seconds; `Validate`'s drift comparison
`b.Timestamp.Sub(now) > time.Second*12*BlockTimeSec` compares a duration
of exactly `12 * 60` seconds, so in seconds the check is
`timestamp - now > 12 * 60`. -/
structure LegacyHeader where
  version : Nat
  height : Nat
  timestamp : Int
  difficulty : Nat
  powNonces : List Nat

/-- Model of the legacy `ValidateBlockVersion`. -/
def validateBlockVersion (height version : Nat) : Bool :=
  decide (height ≤ hardForkInterval) && decide (version = 1)

/-- Possible outcomes of a Go function returning `error` that can also
panic: `panicked` models a runtime panic, `failed msg` an `error` return,
`ok` a `nil` return. -/
inductive VResult where
  | panicked : VResult
  | failed : String → VResult
  | ok : VResult
deriving DecidableEq, Repr

/-- Final steps of the legacy `BlockHeader.Validate`: the comparison of
`POW.ToDifficulty()` (whose panic is `none`) with the header difficulty,
then the cuckoo verification outcome `powOk`. -/
def powDiffCheck (difficulty : Nat) (powOk : Bool) : Option Nat → VResult
  | none => .panicked
  | some d =>
    if d < difficulty then .failed "difficulty is invalid"
    else if powOk then .ok else .failed "invalid pow verify"

/-- Model of the legacy `BlockHeader.Validate` (the variant implementing
the difficulty checks): version for height, timestamp drift, difficulty
at least minimal, proof-of-work difficulty at least the header
difficulty, then cuckoo proof-of-work verification (`powOk`). -/
def blockHeaderValidate (blake : Bytes → Bytes) (now : Int) (powOk : Bool)
    (b : LegacyHeader) : VResult :=
  if ¬ validateBlockVersion b.height b.version then .failed "invalid block version" else
  if b.timestamp - now > 12 * blockTimeSec then .failed "invalid block time" else
  if b.difficulty < minimumDifficulty then .failed "block difficulty is less than minimal" else
  powDiffCheck b.difficulty powOk (legacyToDifficulty blake b.powNonces)

/-! ## Difficulty retargeting (`src/consensus/difficulty.go`, `NextDifficulty`)

`NextDifficulty` walks the block list from index `blen-1` down to `0`,
summing difficulties over the adjustment window, collecting the two
median windows, and breaking out of the loop at the first index at or
beyond `DifficultyAdjustWindow + MedianTimeWindow`.  Timestamps are Unix
nanoseconds (`time.Time` enters only through `Sub`, which yields a
nanosecond `time.Duration`, and through sorting by `Before`). -/

/-- Difficulty and timestamp of one block, the only header fields
`NextDifficulty` reads. -/
structure DiffBlock where
  difficulty : Nat
  timestamp : Int
deriving Repr, DecidableEq

/-- Model of `time.Time.Sub`: the difference saturated to the `int64`
range, as documented for `time.Duration` overflow. -/
def satSub (a b : Int) : Int :=
  max (-(2 ^ 63)) (min (2 ^ 63 - 1) (a - b))

/-- Wrap-around of a mathematical integer into the `int64` range. -/
def wrapI64 (z : Int) : Int := (z + 2 ^ 63) % 2 ^ 64 - 2 ^ 63

/-- Model of `sort.SliceStable` on times ordered by `Before`. -/
def sortTimes (l : List Int) : List Int := l.mergeSort (fun a b => decide (a ≤ b))

/-- State of the `NextDifficulty` loop: the running difficulty sum and
the two timestamp windows, in append order. -/
def ndLoop (blist : List DiffBlock) : List Nat → Nat × List Int × List Int → Nat × List Int × List Int
  | [], st => st
  | i :: rest, (s, wb, we) =>
    if i < difficultyAdjustWindow then
      ndLoop blist rest
        ((s + (blist.getD i ⟨0, 0⟩).difficulty) % 2 ^ 64,
         if i < medianTimeWindow then wb ++ [(blist.getD i ⟨0, 0⟩).timestamp] else wb,
         we)
    else if i < difficultyAdjustWindow + medianTimeWindow then
      ndLoop blist rest (s, wb, we ++ [(blist.getD i ⟨0, 0⟩).timestamp])
    else (s, wb, we)

/-- Tail of `NextDifficulty` after the loop: the not-enough-blocks guard,
the medians, the damped and clamped time span and the final quotient.
All `uint64` arithmetic wraps modulo `2^64`; the `time.Duration`
arithmetic is `int64` (`Int.tdiv` is Go's truncated division).  After
clamping, the time span lies in `[lowerTimeBound, upperTimeBound]`, so
the `uint64(ts)` conversion is `Int.toNat`. -/
def ndFinish : Nat × List Int × List Int → Nat
  | (sumDiff, windowBegin, windowEnd) =>
    if windowEnd.length < medianTimeWindow then minimumDifficulty
    else
      let sortedBegin := sortTimes windowBegin
      let sortedEnd := sortTimes windowEnd
      let beginTime := sortedBegin.getD (sortedBegin.length / 2) 0
      let endTime := sortedEnd.getD (sortedEnd.length / 2) 0
      let diffAvg := sumDiff / difficultyAdjustWindow
      let ts0 := Int.tdiv (wrapI64 (3 * blockTimeWindow + satSub beginTime endTime)) 4
      let ts1 := if ts0 < lowerTimeBound then lowerTimeBound else ts0
      let ts2 := if ts1 > upperTimeBound then upperTimeBound else ts1
      let diff := diffAvg * blockTimeWindow.toNat % 2 ^ 64 / ts2.toNat
      if diff > minimumDifficulty then diff else minimumDifficulty

/-- Model of `NextDifficulty`. -/
def nextDifficulty (blist : List DiffBlock) : Nat :=
  if blist.length = 0 then zeroDifficulty
  else ndFinish (ndLoop blist (List.range blist.length).reverse (0, [], []))

theorem ndLoop_windowEnd_length (blist : List DiffBlock) (idxs : List Nat)
    (st : Nat × List Int × List Int)
    (h : ∀ i ∈ idxs, i < difficultyAdjustWindow + medianTimeWindow) :
    ((ndLoop blist idxs st).2.2).length
      = st.2.2.length + (idxs.filter (fun i => decide (difficultyAdjustWindow ≤ i))).length := by
  induction idxs generalizing st with
  | nil => simp [ndLoop]
  | cons i rest ih =>
    obtain ⟨s, wb, we⟩ := st
    have hi := h i (by simp)
    by_cases h1 : i < difficultyAdjustWindow
    · rw [ndLoop, if_pos h1, ih _ (fun j hj => h j (by simp [hj]))]
      have : ¬ (difficultyAdjustWindow ≤ i) := by omega
      simp [List.filter_cons, this]
    · rw [ndLoop, if_neg h1, if_pos hi, ih _ (fun j hj => h j (by simp [hj]))]
      have : difficultyAdjustWindow ≤ i := by omega
      simp [List.filter_cons, this]
      omega

theorem range_reverse_filter_length (n : Nat) :
    (((List.range n).reverse).filter (fun i => decide (difficultyAdjustWindow ≤ i))).length
      = n - difficultyAdjustWindow := by
  rw [show ((List.range n).reverse).filter (fun i => decide (difficultyAdjustWindow ≤ i))
      = ((List.range n).filter (fun i => decide (difficultyAdjustWindow ≤ i))).reverse by
    rw [List.filter_reverse]]
  rw [List.length_reverse]
  induction n with
  | zero => simp
  | succ n ih =>
    rw [List.range_succ, List.filter_append, List.length_append, ih]
    by_cases h : difficultyAdjustWindow ≤ n
    · simp only [List.filter_cons, List.filter_nil, h]
      simp [difficultyAdjustWindow] at h ⊢
      omega
    · simp only [List.filter_cons, List.filter_nil, h]
      simp [difficultyAdjustWindow] at h ⊢
      omega

/-! ## Current proof of work (`src/consensus/proof.go`, bit-packed form)

The current `Proof` carries `EdgeBits` (a `uint8`) and 42 `uint32`
nonces.  `ProofBytes` packs nonce `n`'s bits `0 .. EdgeBits-1` into a bit
vector of `(EdgeBits*42+7)/8` bytes at offsets `n*EdgeBits + bit`,
little-bit-endian within each byte; `Read` reverses this.  In Go a
`uint32` shift by 32 or more yields zero, hence the `bit < 32` conditions
below. -/

/-- Value of a byte given as its 8 bits, least significant first. -/
def natOfBits : List Bool → Nat
  | [] => 0
  | b :: bs => (if b then 1 else 0) + 2 * natOfBits bs

/-- Bit of the `ProofBytes` bit vector at offset `o`: set exactly when
the nonce at index `o / EdgeBits` exists and has bit `o % EdgeBits` set
(`nonce & (1 << bit)` on a `uint32` is zero for `bit ≥ 32`).  Each
in-range offset is reached from the unique pair `(n, bit) = (o / EdgeBits,
o % EdgeBits)` of the packing loops. -/
def powBit (edgeBits : Nat) (nonces : List Nat) (o : Nat) : Bool :=
  decide (o / edgeBits < nonces.length) && decide (o % edgeBits < 32)
    && Nat.testBit (nonces.getD (o / edgeBits) 0) (o % edgeBits)

/-- Model of `Proof.ProofBytes`: the packed bit vector, byte `j` holding
offsets `8*j .. 8*j+7`.  The Go loop writes each set bit once with
`bitvec[offsetBits/8] |= 1 << (offsetBits%8)`; with the 42-nonce lists
the theorems use, every offset lands inside the vector exactly as in Go. -/
def proofBytesPacked (edgeBits : Nat) (nonces : List Nat) : Bytes :=
  (List.range ((edgeBits * proofSize + 7) / 8)).map (fun j =>
    natOfBits ((List.range 8).map (fun k => powBit edgeBits nonces (8 * j + k))))

/-- Cuckoo-cycle proof of work: the size of the cuckoo graph and the
cycle nonces. -/
structure Proof where
  edgeBits : Nat
  nonces : List Nat
deriving Repr, DecidableEq

/-- Model of `Proof.ProofBytes` on a proof value. -/
def Proof.proofBytes (p : Proof) : Bytes := proofBytesPacked p.edgeBits p.nonces

/-- Model of `Proof.Bytes`: the edge-bits byte followed by the packed
nonces. -/
def Proof.bytes (p : Proof) : Bytes := beBytes 1 p.edgeBits ++ p.proofBytes

/-- Model of the `Proof.Read` inner loop for nonce `i`: `nonce |= 1 << bit`
on a `uint32` adds `2^bit` when `bit < 32` and nothing otherwise, and each
bit position is set at most once, so the accumulated value is this sum. -/
def readNonce (edgeBits : Nat) (bitvec : Bytes) (i : Nat) : Nat :=
  (List.range edgeBits).foldl (fun acc bit =>
    if Nat.testBit (bitvec.getD ((i * edgeBits + bit) / 8) 0) ((i * edgeBits + bit) % 8)
    then acc + (if bit < 32 then 2 ^ bit else 0) else acc) 0

/-- Model of `Proof.Read`: the edge-bits byte (rejected outside `1..=64`),
then the packed bit vector, from which the 42 nonces are recovered. -/
def Proof.read (s : Bytes) : Option (Proof × Bytes) :=
  match pU8 s with
  | none => none
  | some (eb, s1) =>
    if eb = 0 ∨ 64 < eb then none
    else
      match pBytes ((eb * proofSize + 7) / 8) s1 with
      | none => none
      | some (bitvec, s2) =>
        some (⟨eb, (List.range proofSize).map (fun i => readNonce eb bitvec i)⟩, s2)

/-- Model of the current `Proof.ToDifficulty`:
`FromHash(blake2b(proof.Bytes()))`, with blake2b abstracted as `blake`. -/
def Proof.toDifficulty (blake : Bytes → Bytes) (p : Proof) : Option Nat :=
  fromHash (blake (Proof.bytes p))

theorem testBit_natOfBits (l : List Bool) (k : Nat) :
    (natOfBits l).testBit k = l.getD k false := by
  induction l generalizing k with
  | nil =>
    simp [natOfBits, Nat.zero_testBit]
  | cons b bs ih =>
    cases k with
    | zero =>
      rw [natOfBits, Nat.testBit_zero]
      cases b <;> simp [Nat.add_mul_mod_self_left]
    | succ k =>
      rw [natOfBits, Nat.testBit_succ]
      have hdiv : ((if b then 1 else 0) + 2 * natOfBits bs) / 2 = natOfBits bs := by
        cases b <;> simp <;> omega
      
      rw [hdiv, ih]
      rfl

theorem length_proofBytesPacked (edgeBits : Nat) (nonces : List Nat) :
    (proofBytesPacked edgeBits nonces).length = (edgeBits * proofSize + 7) / 8 := by
  simp [proofBytesPacked]

theorem proofBytesPacked_testBit (edgeBits : Nat) (nonces : List Nat) {o : Nat}
    (ho : o / 8 < (edgeBits * proofSize + 7) / 8) :
    Nat.testBit ((proofBytesPacked edgeBits nonces).getD (o / 8) 0) (o % 8)
      = powBit edgeBits nonces o := by
  have hlen : o / 8 < (proofBytesPacked edgeBits nonces).length := by
    rw [length_proofBytesPacked]; exact ho
  rw [List.getD_eq_getElem _ _ hlen]
  simp only [proofBytesPacked, List.getElem_map, List.getElem_range]
  rw [testBit_natOfBits]
  have h8 : o % 8 < ((List.range 8).map
      (fun k => powBit edgeBits nonces (8 * (o / 8) + k))).length := by
    simp [Nat.mod_lt o (show 0 < 8 by norm_num)]
  rw [List.getD_eq_getElem _ _ h8]
  simp only [List.getElem_map, List.getElem_range]
  rw [Nat.add_comm (8 * (o / 8)) (o % 8), Nat.mod_add_div o 8]

theorem sum_testBit_eq_mod (m B : Nat) :
    ((List.range B).map (fun b => if m.testBit b then 2 ^ b else 0)).sum = m % 2 ^ B := by
  induction B with
  | zero => simp [Nat.mod_one]
  | succ B ih =>
    rw [List.range_succ, List.map_append, List.sum_append, ih]
    have hsp : m % 2 ^ (B + 1) = m % 2 ^ B + 2 ^ B * (m / 2 ^ B % 2) := Nat.mod_pow_succ
    have hbit : (if m.testBit B then 2 ^ B else 0) = 2 ^ B * (m / 2 ^ B % 2) := by
      rw [Nat.testBit_to_div_mod]
      have h2 : m / 2 ^ B % 2 = 0 ∨ m / 2 ^ B % 2 = 1 := by omega
      rcases h2 with h2 | h2 <;> simp [h2]
    rw [hsp]
    simp [hbit]

theorem foldl_if_add (f : Nat → Bool) (g : Nat → Nat) (n acc : Nat) :
    (List.range n).foldl (fun a b => if f b then a + g b else a) acc
      = acc + ((List.range n).map (fun b => if f b then g b else 0)).sum := by
  induction n generalizing acc with
  | zero => simp
  | succ n ih =>
    rw [List.range_succ, List.foldl_append, List.map_append, List.sum_append, ih]
    by_cases h : f n
    · simp [h, Nat.add_assoc]
    · simp [h]

theorem readNonce_packed {eb : Nat} (nonces : List Nat) {i : Nat}
    (heb : 1 ≤ eb) (hlen : nonces.length = proofSize) (hi : i < proofSize)
    (hm32 : nonces.getD i 0 < 2 ^ 32) (hmeb : nonces.getD i 0 < 2 ^ eb) :
    readNonce eb (proofBytesPacked eb nonces) i = nonces.getD i 0 := by
  rw [readNonce, foldl_if_add, Nat.zero_add]
  have hmap : (List.range eb).map (fun bit =>
        if Nat.testBit ((proofBytesPacked eb nonces).getD ((i * eb + bit) / 8) 0)
            ((i * eb + bit) % 8)
        then (if bit < 32 then 2 ^ bit else 0) else 0)
      = (List.range eb).map (fun bit => if (nonces.getD i 0).testBit bit then 2 ^ bit else 0) := by
    apply List.map_congr_left
    intro bit hbit
    rw [List.mem_range] at hbit
    have ho : i * eb + bit < proofSize * eb := by
      have h1 : i + 1 ≤ proofSize := hi
      calc i * eb + bit < i * eb + eb := by omega
        _ = (i + 1) * eb := by ring
        _ ≤ proofSize * eb := Nat.mul_le_mul_right _ h1
    have hdiv : (i * eb + bit) / 8 < (eb * proofSize + 7) / 8 := by
      have : i * eb + bit < eb * proofSize := by rw [Nat.mul_comm eb proofSize]; exact ho
      omega
    rw [proofBytesPacked_testBit eb nonces hdiv, powBit]
    have hq : (i * eb + bit) / eb = i := by
      rw [Nat.mul_comm i eb, Nat.mul_add_div (by omega), Nat.div_eq_of_lt hbit, Nat.add_zero]
    have hr : (i * eb + bit) % eb = bit := by
      rw [Nat.mul_comm i eb, Nat.mul_add_mod, Nat.mod_eq_of_lt hbit]
    rw [hq, hr, hlen]
    simp only [hi, decide_eq_true_eq, decide_eq_false_iff_not]
    by_cases h32 : bit < 32
    · simp [h32, hi]
    · have hfb : (nonces.getD i 0).testBit bit = false := by
        apply Nat.testBit_lt_two_pow
        have h1 : (2 : Nat) ^ 32 ≤ 2 ^ bit := Nat.pow_le_pow_right (by norm_num) (by omega)
        omega
      rw [List.getD] at hfb
      simp only [List.get?_eq_getElem?] at hfb
      simp [h32, hfb]
  rw [hmap, sum_testBit_eq_mod, Nat.mod_eq_of_lt hmeb]

theorem proofBytes_read (p : Proof) (h1 : 1 ≤ p.edgeBits) (h2 : p.edgeBits ≤ 64)
    (h3 : p.nonces.length = proofSize)
    (h5 : ∀ n ∈ p.nonces, n < 2 ^ p.edgeBits)
    (h6 : ∀ n ∈ p.nonces, n < 2 ^ 32) (rest : Bytes) :
    Proof.read (Proof.bytes p ++ rest) = some (p, rest) := by
  obtain ⟨eb, nonces⟩ := p
  simp only at h1 h2 h3 h5 h6
  rw [Proof.bytes, Proof.proofBytes]
  simp only
  rw [List.append_assoc, Proof.read, pU8_append (by omega)]
  simp only
  rw [if_neg (by omega)]
  rw [pBytes_append (length_proofBytesPacked eb nonces) rest]
  simp only [Option.some.injEq, Prod.mk.injEq, Proof.mk.injEq, and_true, true_and]
  apply List.ext_getElem
  · simp [h3]
  · intro i hlen1 hlen2
    simp only [List.getElem_map, List.getElem_range]
    have hi : i < proofSize := by simpa using hlen1
    have hgetd : nonces.getD i 0 = nonces[i] := List.getD_eq_getElem nonces 0 hlen2
    have hmem : nonces[i] ∈ nonces := List.getElem_mem hlen2
    rw [readNonce_packed nonces h1 h3 hi (by rw [hgetd]; exact h6 _ hmem)
      (by rw [hgetd]; exact h5 _ hmem), hgetd]

/-- C2: for any Proof with edge bits in `[1, 64]` and exactly 42 strictly
ascending `uint32` nonces each below `2^edge_bits`, serializing with
`Proof.Bytes` and deserializing with `Proof.Read` yields the same edge
bits and the same 42 nonces. -/
theorem c2_proof_serialization_roundtrip (p : Proof) (h1 : 1 ≤ p.edgeBits)
    (h2 : p.edgeBits ≤ 64) (h3 : p.nonces.length = proofSize)
    (h4 : p.nonces.Pairwise (· < ·))
    (h5 : ∀ n ∈ p.nonces, n < 2 ^ p.edgeBits)
    (h6 : ∀ n ∈ p.nonces, n < 2 ^ 32) :
    Proof.read (Proof.bytes p) = some (p, []) := by
  have h := proofBytes_read p h1 h2 h3 h5 h6 []
  simpa using h

/-- Witness for C2 at a concrete proof: edge bits 6, nonces `0, 1, ..., 41`. -/
theorem c2_witness :
    Proof.read (Proof.bytes ⟨6, List.range 42⟩) = some (⟨6, List.range 42⟩, []) :=
  c2_proof_serialization_roundtrip ⟨6, List.range 42⟩ (by decide) (by decide) (by decide)
    (by decide) (by decide) (by decide)

/-- C10: `Difficulty.FromHash` divides by the first 8 bytes of the hash
read as a big-endian `uint64` without guarding against zero, so on every
hash whose first 8 bytes are all zero it panics with a division by zero
instead of returning a value; consequently `Proof.ToDifficulty` panics on
every proof whose blake2b hash starts with 8 zero bytes. -/
theorem c10_fromhash_division_by_zero :
    (∀ hash : Bytes, 8 ≤ hash.length → hash.take 8 = List.replicate 8 0 →
      fromHash hash = none) ∧
    (∀ (blake : Bytes → Bytes) (p : Proof),
      (blake (Proof.bytes p)).take 8 = List.replicate 8 0 →
      8 ≤ (blake (Proof.bytes p)).length →
      Proof.toDifficulty blake p = none) := by
  have hz : beVal (List.replicate 8 0) = 0 := by decide
  constructor
  · intro hash hlen htake
    rw [fromHash, if_pos hlen, htake, hz]
    simp
  · intro blake p htake hlen
    rw [Proof.toDifficulty, fromHash, if_pos hlen, htake, hz]
    simp

/-- Witness for C10: the constant all-zero 32-byte hash function and a
concrete proof. -/
theorem c10_witness :
    fromHash (List.replicate 32 0) = none ∧
    Proof.toDifficulty (fun _ => List.replicate 32 0) ⟨1, List.replicate 42 0⟩ = none :=
  ⟨c10_fromhash_division_by_zero.1 (List.replicate 32 0) (by decide) (by decide),
   c10_fromhash_division_by_zero.2 (fun _ => List.replicate 32 0) ⟨1, List.replicate 42 0⟩
     (by decide) (by decide)⟩

/-- C1: the legacy `BlockHeader.Validate` returns an error whenever the
header difficulty is below the minimum difficulty, returns an error
whenever the difficulty derived from the proof of work (when it is
defined) is below the header difficulty, and returns `nil` exactly when
the version, timestamp, both difficulty checks and the proof-of-work
verification all pass. -/
theorem c1_header_validate_difficulty (blake : Bytes → Bytes) (now : Int) (powOk : Bool)
    (b : LegacyHeader) :
    (b.difficulty < minimumDifficulty →
      ∃ msg, blockHeaderValidate blake now powOk b = .failed msg) ∧
    (∀ d, legacyToDifficulty blake b.powNonces = some d → d < b.difficulty →
      ∃ msg, blockHeaderValidate blake now powOk b = .failed msg) ∧
    (blockHeaderValidate blake now powOk b = .ok ↔
      (validateBlockVersion b.height b.version = true ∧
       ¬ (b.timestamp - now > 12 * blockTimeSec) ∧
       minimumDifficulty ≤ b.difficulty ∧
       (∃ d, legacyToDifficulty blake b.powNonces = some d ∧ b.difficulty ≤ d) ∧
       powOk = true)) := by
  unfold blockHeaderValidate
  by_cases h1 : validateBlockVersion b.height b.version = true
  case neg =>
    rw [if_pos (by simpa using h1)]
    refine ⟨fun _ => ⟨_, rfl⟩, fun d _ _ => ⟨_, rfl⟩, ?_⟩
    simp only [reduceCtorEq, false_iff]
    intro hc
    exact h1 hc.1
  case pos =>
    rw [if_neg (by simpa using h1)]
    by_cases h2 : b.timestamp - now > 12 * blockTimeSec
    case pos =>
      rw [if_pos h2]
      refine ⟨fun _ => ⟨_, rfl⟩, fun d _ _ => ⟨_, rfl⟩, ?_⟩
      simp only [reduceCtorEq, false_iff]
      intro hc
      exact hc.2.1 h2
    case neg =>
      rw [if_neg h2]
      by_cases h3 : b.difficulty < minimumDifficulty
      case pos =>
        rw [if_pos h3]
        refine ⟨fun _ => ⟨_, rfl⟩, fun d _ _ => ⟨_, rfl⟩, ?_⟩
        simp only [reduceCtorEq, false_iff]
        intro hc
        have := hc.2.2.1
        omega
      case neg =>
        rw [if_neg h3]
        cases hm : legacyToDifficulty blake b.powNonces with
        | none =>
          rw [powDiffCheck]
          refine ⟨fun hd => absurd hd h3, ?_, ?_⟩
          · intro d hd
            cases hd
          simp only [reduceCtorEq, false_iff]
          intro hc
          obtain ⟨d, hd, _⟩ := hc.2.2.2.1
          cases hd
        | some d =>
          rw [powDiffCheck]
          refine ⟨fun hd => absurd hd h3, fun e he hlt => ?_, ?_⟩
          · cases he
            rw [if_pos hlt]
            exact ⟨_, rfl⟩
          · by_cases hlt : d < b.difficulty
            case pos =>
              rw [if_pos hlt]
              simp only [reduceCtorEq, false_iff]
              intro hc
              obtain ⟨e, he, hde⟩ := hc.2.2.2.1
              cases he
              omega
            case neg =>
              rw [if_neg hlt]
              by_cases hp : powOk = true
              case pos =>
                rw [if_pos hp]
                simp only [true_iff]
                exact ⟨h1, h2, by omega, ⟨d, rfl, by omega⟩, hp⟩
              case neg =>
                rw [if_neg hp]
                simp only [reduceCtorEq, false_iff]
                intro hc
                exact hp hc.2.2.2.2

/-- Witness for C1 at concrete inputs: a header with difficulty zero is
rejected with an error, and a fully valid header passes. -/
theorem c1_witness :
    (∃ msg, blockHeaderValidate (fun _ => List.replicate 32 1) 0 true
      ⟨1, 0, 0, 0, List.replicate 42 0⟩ = .failed msg) ∧
    blockHeaderValidate (fun _ => List.replicate 32 1) 0 true
      ⟨1, 0, 0, 1, List.replicate 42 0⟩ = .ok :=
  ⟨(c1_header_validate_difficulty (fun _ => List.replicate 32 1) 0 true
      ⟨1, 0, 0, 0, List.replicate 42 0⟩).1 (by decide),
   (c1_header_validate_difficulty (fun _ => List.replicate 32 1) 0 true
      ⟨1, 0, 0, 1, List.replicate 42 0⟩).2.2.mpr
     ⟨by decide, by decide, by decide, ⟨15, by decide, by decide⟩, rfl⟩⟩

theorem ndFinish_short {st : Nat × List Int × List Int}
    (h : st.2.2.length < medianTimeWindow) : ndFinish st = minimumDifficulty := by
  obtain ⟨s, wb, we⟩ := st
  rw [ndFinish]
  exact if_pos h

/-- C7 (amended): for every nonempty block list shorter than
`DIFFICULTY_ADJUST_WINDOW + MEDIAN_TIME_WINDOW` blocks — equivalently,
with fewer than `MEDIAN_TIME_WINDOW` blocks older than the adjustment
window — `NextDifficulty` returns `MINIMUM_DIFFICULTY`; the empty list
instead returns `ZeroDifficulty = 0`. -/
theorem c7_next_difficulty_min (blist : List DiffBlock) (hne : blist ≠ [])
    (hlen : blist.length < difficultyAdjustWindow + medianTimeWindow) :
    nextDifficulty blist = minimumDifficulty := by
  have h0 : blist.length ≠ 0 := fun h => hne (List.length_eq_zero.mp h)
  rw [nextDifficulty, if_neg h0]
  apply ndFinish_short
  rw [ndLoop_windowEnd_length blist _ _ (by
    intro i hi
    rw [List.mem_reverse, List.mem_range] at hi
    omega)]
  rw [range_reverse_filter_length]
  simp only [List.length_nil, difficultyAdjustWindow, medianTimeWindow] at hlen ⊢
  omega

/-- Witness for C7 (amended) at a concrete one-element list. -/
theorem c7_witness : nextDifficulty [⟨5, 1000⟩] = minimumDifficulty :=
  c7_next_difficulty_min [⟨5, 1000⟩] (by decide) (by decide)

/-- Counterexample for C7 as stated: the empty block list is shorter than
the adjustment-plus-median window and so has fewer than
`MEDIAN_TIME_WINDOW` blocks older than the adjustment window, yet
`NextDifficulty` returns `ZeroDifficulty = 0`, not `MINIMUM_DIFFICULTY = 1`. -/
theorem c7_counterexample :
    ([] : List DiffBlock).length < difficultyAdjustWindow + medianTimeWindow ∧
    nextDifficulty [] = zeroDifficulty ∧
    nextDifficulty [] ≠ minimumDifficulty := by
  refine ⟨by decide, rfl, by decide⟩

/-! ## Wire protocol constants (`src/src/consensus/network.go`,
`src/consensus/network.go`, `src/src/p2p/messages.go`)

The `secp256k1zkp` constants referenced by the consensus codecs are not
among the supplied source files; `pedersenCommitmentSize` and
`maxProofSize` are modelled from the specification (§6.1), and
`maxSignatureSize` is a bound both the encoder and decoder compare
against, so no theorem depends on its exact value. -/

def magicCode : Bytes := [0x1e, 0xc5]

def headerLen : Nat := 11

def maxMsgLen : Nat := 20000000

def maxPeerAddrs : Nat := 256

def maxBlockHeaders : Nat := 512

def maxLocators : Nat := 14

def protocolVersion : Nat := 1

def msgTypeError : Nat := 0

def msgTypeHand : Nat := 1

def msgTypeShake : Nat := 2

def msgTypePing : Nat := 3

def msgTypePong : Nat := 4

def msgTypeGetPeerAddrs : Nat := 5

def msgTypePeerAddrs : Nat := 6

def msgTypeGetHeaders : Nat := 7

def msgTypeHeaders : Nat := 8

def msgTypeGetBlock : Nat := 9

def msgTypeBlock : Nat := 10

def msgTypeTransaction : Nat := 11

/-- Modelled from the spec: `secp256k1zkp.PedersenCommitmentSize` (33),
the package's constants file being absent from the supplied sources. -/
def pedersenCommitmentSize : Nat := 33

/-- Modelled from the spec: `secp256k1zkp.MaxProofSize` (5134). -/
def maxProofSize : Nat := 5134

/-- Modelled from the spec: `secp256k1zkp.MaxSignatureSize`; the constant
is absent from the supplied sources and its exact value is irrelevant to
the theorems (writer and reader compare signature lengths against the
same bound). -/
def maxSignatureSize : Nat := 72

/-- Size constant `SwitchCommitHashSize` (`src/src/consensus/proof.go`). -/
def switchCommitHashSize : Nat := 20

/-! ## TCP address serialization (`src/src/p2p/helpers.go`) -/

/-- The network address held by a `net.TCPAddr`: the raw IP bytes (4 or
16 of them) and the port. -/
structure GoTCPAddr where
  ip : Bytes
  port : Nat
deriving Repr, DecidableEq

/-- The 12-byte prefix of an IPv4-mapped IPv6 address, used by
`net.IP.To4`. -/
def v4MappedPrefix : Bytes := [0, 0, 0, 0, 0, 0, 0, 0, 0, 0, 0xff, 0xff]

/-- Model of `addr.IP.To4()` followed by the `nil` fallback to the
original IP in `serializeTCPAddr`. -/
def goTo4 (ip : Bytes) : Bytes :=
  if ip.length = 4 then ip
  else if ip.length = 16 ∧ ip.take 12 = v4MappedPrefix then ip.drop 12
  else ip

/-- Model of `serializeTCPAddr`: tag byte 0 plus 4 address bytes for
IPv4, or tag byte 1 plus the loop `for i := 0; i < 8; i += 2` writing the
four 16-bit segments built from the FIRST 8 address bytes for IPv6 (the
loop bound is 8, not 16, so the last 8 bytes are never written), then the
port as `uint16`.  Any other address length is a `logrus.Fatal`
(`none`). -/
def serializeTCPAddr (a : GoTCPAddr) : Option Bytes :=
  let ip := goTo4 a.ip
  if ip.length = 4 then some ([0] ++ ip ++ beBytes 2 a.port)
  else if ip.length = 16 then
    some ([1] ++ (List.range 4).flatMap (fun k =>
      beBytes 2 (ip.getD (2 * k) 0 * 256 + ip.getD (2 * k + 1) 0)) ++ beBytes 2 a.port)
  else none

/-- Model of `deserializeTCPAddr`: the tag byte, then 4 address bytes and
the port for tag 0.  For tag 1 the Go code calls
`binary.Read(r, binary.BigEndian, segment)` with the segment VALUE rather
than a pointer, which `encoding/binary` rejects, so the IPv6 branch
always returns an error.  Any other tag is an error. -/
def deserializeTCPAddr (s : Bytes) : Option (GoTCPAddr × Bytes) :=
  match pU8 s with
  | none => none
  | some (tag, s1) =>
    if tag = 0 then
      match pBytes 4 s1 with
      | none => none
      | some (ip, s2) =>
        match pU16 s2 with
        | none => none
        | some (port, s3) => some (⟨ip, port⟩, s3)
    else none

/-! ## Handshake messages (`src/unnamed/part_007`, package `p2p`) -/

/-- First part of the handshake. -/
structure Hand where
  version : Nat
  capabilities : Nat
  nonce : Nat
  totalDifficulty : Nat
  senderAddr : GoTCPAddr
  receiverAddr : GoTCPAddr
  userAgent : Bytes
deriving Repr, DecidableEq

/-- Second part of the handshake. -/
structure Shake where
  version : Nat
  capabilities : Nat
  totalDifficulty : Nat
  userAgent : Bytes
deriving Repr, DecidableEq

/-- Model of `hand.Bytes` (`logrus.Fatal` on a nil or malformed address
is `none`). -/
def handBytes (h : Hand) : Option Bytes :=
  match serializeTCPAddr h.senderAddr, serializeTCPAddr h.receiverAddr with
  | some sa, some ra =>
    some (beBytes 4 h.version ++ beBytes 4 h.capabilities ++ beBytes 8 h.nonce ++
      beBytes 8 h.totalDifficulty ++ sa ++ ra ++
      beBytes 8 h.userAgent.length ++ h.userAgent)
  | _, _ => none

/-- Model of `hand.Read`: rejects a protocol version other than
`consensus.ProtocolVersion`, then reads capabilities, nonce, total
difficulty, the two addresses and the length-prefixed user agent. -/
def handRead (s : Bytes) : Option (Hand × Bytes) :=
  match pU32 s with
  | none => none
  | some (version, s1) =>
    if version ≠ protocolVersion then none
    else match pU32 s1 with
    | none => none
    | some (caps, s2) =>
      match pU64 s2 with
      | none => none
      | some (nonce, s3) =>
        match pU64 s3 with
        | none => none
        | some (td, s4) =>
          match deserializeTCPAddr s4 with
          | none => none
          | some (sender, s5) =>
            match deserializeTCPAddr s5 with
            | none => none
            | some (receiver, s6) =>
              match pU64 s6 with
              | none => none
              | some (ualen, s7) =>
                match pBytes ualen s7 with
                | none => none
                | some (ua, s8) => some (⟨version, caps, nonce, td, sender, receiver, ua⟩, s8)

/-- Model of `shake.Bytes`. -/
def shakeBytes (h : Shake) : Bytes :=
  beBytes 4 h.version ++ beBytes 4 h.capabilities ++ beBytes 8 h.totalDifficulty ++
    beBytes 8 h.userAgent.length ++ h.userAgent

/-- Model of `shake.Read`: rejects a protocol version other than
`consensus.ProtocolVersion`, then reads capabilities, total difficulty
and the length-prefixed user agent. -/
def shakeRead (s : Bytes) : Option (Shake × Bytes) :=
  match pU32 s with
  | none => none
  | some (version, s1) =>
    if version ≠ protocolVersion then none
    else match pU32 s1 with
    | none => none
    | some (caps, s2) =>
      match pU64 s2 with
      | none => none
      | some (td, s3) =>
        match pU64 s3 with
        | none => none
        | some (ualen, s4) =>
          match pBytes ualen s4 with
          | none => none
          | some (ua, s5) => some (⟨version, caps, td, ua⟩, s5)

/-! ## Simple messages (`src/src/p2p/messages.go`, lines 18-380) -/

/-- Model of `Ping.Bytes` (also used by `Pong`). -/
def pingBytes (totalDifficulty height : Nat) : Bytes :=
  beBytes 8 totalDifficulty ++ beBytes 8 height

/-- Model of `Ping.Read`. -/
def pingRead (s : Bytes) : Option ((Nat × Nat) × Bytes) :=
  match pU64 s with
  | none => none
  | some (td, s1) =>
    match pU64 s1 with
    | none => none
    | some (h, s2) => some ((td, h), s2)

/-- Model of `GetPeerAddrs.Bytes`. -/
def getPeerAddrsBytes (capabilities : Nat) : Bytes := beBytes 4 capabilities

/-- Model of `GetPeerAddrs.Read`. -/
def getPeerAddrsRead (s : Bytes) : Option (Nat × Bytes) := pU32 s

/-- Model of `PeerError.Bytes`: error code, then the length-prefixed
message string. -/
def peerErrorBytes (code : Nat) (message : Bytes) : Bytes :=
  beBytes 4 code ++ beBytes 8 message.length ++ message

/-- Model of `PeerError.Read`. -/
def peerErrorRead (s : Bytes) : Option ((Nat × Bytes) × Bytes) :=
  match pU32 s with
  | none => none
  | some (code, s1) =>
    match pU64 s1 with
    | none => none
    | some (mlen, s2) =>
      match pBytes mlen s2 with
      | none => none
      | some (msg, s3) => some ((code, msg), s3)

/-- Model of `PeerAddrs.Bytes`: `logrus.Fatal` (`none`) over
`MaxPeerAddrs` addresses, then a `uint32` count and the serialized
addresses. -/
def peerAddrsBytes (peers : List GoTCPAddr) : Option Bytes :=
  if maxPeerAddrs < peers.length then none
  else match peers.mapM serializeTCPAddr with
    | none => none
    | some addrs => some (beBytes 4 peers.length ++ addrs.flatten)

/-- Model of `PeerAddrs.Read`: rejects a declared count above
`MaxPeerAddrs`, then reads that many addresses. -/
def peerAddrsRead (s : Bytes) : Option (List GoTCPAddr × Bytes) :=
  match pU32 s with
  | none => none
  | some (count, s1) =>
    if maxPeerAddrs < count then none
    else pCount deserializeTCPAddr count s1

/-- Model of `GetBlock.Bytes`: the raw hash; `logrus.Fatal` (`none`) when
it is not `BlockHashSize` bytes. -/
def getBlockBytes (hash : Bytes) : Option Bytes :=
  if hash.length = blockHashSize then some hash else none

/-- Model of `GetBlock.Read`. -/
def getBlockRead (s : Bytes) : Option (Bytes × Bytes) := pBytes blockHashSize s

/-! ## Locator (`src/unnamed/part_018`, package `consensus`) -/

/-- Model of `Locator.Bytes`: `logrus.Fatal` (`none`) over `MaxLocators`
hashes, then a `uint8` count and the raw hashes. -/
def locatorBytes (hashes : List Bytes) : Option Bytes :=
  if maxLocators < hashes.length then none
  else some (beBytes 1 hashes.length ++ hashes.flatten)

/-- Model of `Locator.Read`: rejects a declared count above
`MaxLocators`, then reads that many `BlockHashSize`-byte hashes. -/
def locatorRead (s : Bytes) : Option (List Bytes × Bytes) :=
  match pU8 s with
  | none => none
  | some (count, s1) =>
    if maxLocators < count then none
    else pCount (pBytes blockHashSize) count s1

/-! ## Consensus objects of the `src/src/consensus` codec era

These are the `BlockHeader`, `Input`, `Output`, `TxKernel`, `Block` and
`Transaction` codecs of `src/src/consensus/proof.go` (lines 145-1049) and
`src/unnamed/part_013`, the era whose p2p package (`src/src/p2p`) defines
the cited `WriteMessage`/`ReadMessage`.  The legacy proof of work inside
the header is the 42 raw big-endian `uint32` nonces. -/

/-- Legacy block header (codec fields, in wire order). -/
structure MidHeader where
  version : Nat
  height : Nat
  previous : Bytes
  timestamp : Int
  utxoRoot : Bytes
  rangeProofRoot : Bytes
  kernelRoot : Bytes
  nonce : Nat
  difficulty : Nat
  totalDifficulty : Nat
  powNonces : List Nat
deriving Repr, DecidableEq

/-- Transaction input: a Pedersen commitment. -/
structure MidInput where
  commit : Bytes
deriving Repr, DecidableEq

/-- Transaction output with its switch commitment hash and range proof
(`RangeProof` carries the proof bytes and the separate `ProofLen`
field). -/
structure MidOutput where
  features : Nat
  commit : Bytes
  switchCommitHash : Bytes
  proof : Bytes
  proofLen : Nat
deriving Repr, DecidableEq

/-- Transaction kernel. -/
structure MidKernel where
  features : Nat
  fee : Nat
  lockHeight : Nat
  excess : Bytes
  excessSig : Bytes
deriving Repr, DecidableEq

/-- Full block. -/
structure MidBlock where
  header : MidHeader
  inputs : List MidInput
  outputs : List MidOutput
  kernels : List MidKernel
deriving Repr, DecidableEq

/-- Transaction (`src/unnamed/part_013`). -/
structure MidTx where
  inputs : List MidInput
  outputs : List MidOutput
  fee : Nat
  lockHeight : Nat
  excessSig : Bytes
deriving Repr, DecidableEq

/-- Model of `BlockHeader.Bytes` (`bytesWithoutPOW` followed by the
legacy `Proof.Bytes`); the `logrus.Fatal` length guards are `none`. -/
def midHeaderBytes (b : MidHeader) : Option Bytes :=
  if b.previous.length ≠ blockHashSize then none
  else if b.utxoRoot.length ≠ blockHashSize ∨ b.rangeProofRoot.length ≠ blockHashSize
      ∨ b.kernelRoot.length ≠ blockHashSize then none
  else match legacyProofBytes b.powNonces with
    | none => none
    | some pow =>
      some (beBytes 2 b.version ++ beBytes 8 b.height ++ b.previous ++ encI64 b.timestamp ++
        b.utxoRoot ++ b.rangeProofRoot ++ b.kernelRoot ++ beBytes 8 b.nonce ++
        beBytes 8 b.difficulty ++ beBytes 8 b.totalDifficulty ++ pow)

/-- Model of `BlockHeader.Read`. -/
def midHeaderRead (s : Bytes) : Option (MidHeader × Bytes) :=
  match pU16 s with
  | none => none
  | some (version, s1) =>
    match pU64 s1 with
    | none => none
    | some (height, s2) =>
      match pBytes blockHashSize s2 with
      | none => none
      | some (previous, s3) =>
        match pI64 s3 with
        | none => none
        | some (ts, s4) =>
          match pBytes blockHashSize s4 with
          | none => none
          | some (utxoRoot, s5) =>
            match pBytes blockHashSize s5 with
            | none => none
            | some (rangeProofRoot, s6) =>
              match pBytes blockHashSize s6 with
              | none => none
              | some (kernelRoot, s7) =>
                match pU64 s7 with
                | none => none
                | some (nonce, s8) =>
                  match pU64 s8 with
                  | none => none
                  | some (difficulty, s9) =>
                    match pU64 s9 with
                    | none => none
                    | some (totalDifficulty, s10) =>
                      match pCount pU32 proofSize s10 with
                      | none => none
                      | some (pow, s11) =>
                        some (⟨version, height, previous, ts, utxoRoot, rangeProofRoot,
                          kernelRoot, nonce, difficulty, totalDifficulty, pow⟩, s11)

/-- Unchecked byte image of an `Output`, the value `Output.Bytes` writes
when its length guards pass; `OutputList.Less` compares exactly these
images. -/
def midOutputBytesU (o : MidOutput) : Bytes :=
  beBytes 1 o.features ++ o.commit ++ o.switchCommitHash ++ beBytes 8 o.proofLen ++ o.proof

/-- Model of `Output.Bytes` with its `logrus.Fatal` length guards as
`none`. -/
def midOutputBytes (o : MidOutput) : Option Bytes :=
  if o.commit.length ≠ pedersenCommitmentSize then none
  else if o.switchCommitHash.length ≠ switchCommitHashSize then none
  else if maxProofSize < o.proof.length ∨ o.proof.length ≠ o.proofLen then none
  else some (midOutputBytesU o)

/-- Model of `Output.Read`: features, commitment, switch commitment hash,
then the range proof with its length checked against `MaxProofSize`. -/
def midOutputRead (s : Bytes) : Option (MidOutput × Bytes) :=
  match pU8 s with
  | none => none
  | some (features, s1) =>
    match pBytes pedersenCommitmentSize s1 with
    | none => none
    | some (commit, s2) =>
      match pBytes switchCommitHashSize s2 with
      | none => none
      | some (switch, s3) =>
        match pU64 s3 with
        | none => none
        | some (proofLen, s4) =>
          if maxProofSize < proofLen then none
          else match pBytes proofLen s4 with
            | none => none
            | some (proof, s5) => some (⟨features, commit, switch, proof, proofLen⟩, s5)

/-- Unchecked byte image of a `TxKernel`, the value `TxKernel.Bytes`
writes when its guards pass; `TxKernelList.Less` compares these images. -/
def midKernelBytesU (k : MidKernel) : Bytes :=
  beBytes 1 k.features ++ beBytes 8 k.fee ++ beBytes 8 k.lockHeight ++ k.excess ++
    beBytes 8 k.excessSig.length ++ k.excessSig

/-- Model of `TxKernel.Bytes` with its `logrus.Fatal` guards as `none`. -/
def midKernelBytes (k : MidKernel) : Option Bytes :=
  if k.excess.length ≠ pedersenCommitmentSize then none
  else if maxSignatureSize < k.excessSig.length then none
  else some (midKernelBytesU k)

/-- Model of `TxKernel.Read`. -/
def midKernelRead (s : Bytes) : Option (MidKernel × Bytes) :=
  match pU8 s with
  | none => none
  | some (features, s1) =>
    match pU64 s1 with
    | none => none
    | some (fee, s2) =>
      match pU64 s2 with
      | none => none
      | some (lockHeight, s3) =>
        match pBytes pedersenCommitmentSize s3 with
        | none => none
        | some (excess, s4) =>
          match pU64 s4 with
          | none => none
          | some (sigLen, s5) =>
            if maxSignatureSize < sigLen then none
            else match pBytes sigLen s5 with
              | none => none
              | some (sig, s6) => some (⟨features, fee, lockHeight, excess, sig⟩, s6)

/-- Model of `Input.Read` inside `Block.Read`/`Transaction.Read`: a
`PedersenCommitmentSize`-byte commitment. -/
def midInputRead (s : Bytes) : Option (MidInput × Bytes) :=
  match pBytes pedersenCommitmentSize s with
  | none => none
  | some (commit, s1) => some (⟨commit⟩, s1)

/-- Comparator of `InputList.Less`. -/
def midInputLt (a b : MidInput) : Bool := bytesLt a.commit b.commit

/-- Comparator of `OutputList.Less`. -/
def midOutputLt (a b : MidOutput) : Bool := bytesLt (midOutputBytesU a) (midOutputBytesU b)

/-- Comparator of `TxKernelList.Less`. -/
def midKernelLt (a b : MidKernel) : Bool := bytesLt (midKernelBytesU a) (midKernelBytesU b)

/-- Model of Go `sort.IsSorted(data)`: no element `Less` than its
predecessor. -/
def goIsSorted {α : Type} (lt : α → α → Bool) : List α → Bool
  | [] => true
  | [_] => true
  | x :: y :: rest => ! lt y x && goIsSorted lt (y :: rest)

/-- Model of `Block.Bytes`: header, the three `uint64` counts, then the
inputs, outputs and kernels each sorted in place by `sort.Sort` before
being written. -/
def midBlockBytes (b : MidBlock) : Option Bytes :=
  match midHeaderBytes b.header with
  | none => none
  | some hb =>
    match (goSort midOutputLt b.outputs).mapM midOutputBytes with
    | none => none
    | some outs =>
      match (goSort midKernelLt b.kernels).mapM midKernelBytes with
      | none => none
      | some kers =>
        some (hb ++ beBytes 8 b.inputs.length ++ beBytes 8 b.outputs.length ++
          beBytes 8 b.kernels.length ++
          (goSort midInputLt b.inputs).flatMap (fun i => i.commit) ++
          outs.flatten ++ kers.flatten)

/-- Model of `Block.Read`: header, three counts (unbounded in this era),
then the inputs, outputs and kernels.  No sortedness check is made. -/
def midBlockRead (s : Bytes) : Option (MidBlock × Bytes) :=
  match midHeaderRead s with
  | none => none
  | some (header, s1) =>
    match pU64 s1 with
    | none => none
    | some (inputs, s2) =>
      match pU64 s2 with
      | none => none
      | some (outputs, s3) =>
        match pU64 s3 with
        | none => none
        | some (kernels, s4) =>
          match pCount midInputRead inputs s4 with
          | none => none
          | some (ins, s5) =>
            match pCount midOutputRead outputs s5 with
            | none => none
            | some (outs, s6) =>
              match pCount midKernelRead kernels s6 with
              | none => none
              | some (kers, s7) => some (⟨header, ins, outs, kers⟩, s7)

/-- Model of `Transaction.Bytes` (`src/unnamed/part_013`): fee, lock
height, length-prefixed excess signature (with its `Fatal` bound), the
two counts, then the inputs and outputs each sorted in place before
being written. -/
def midTxBytes (t : MidTx) : Option Bytes :=
  if maxSignatureSize < t.excessSig.length then none
  else match (goSort midOutputLt t.outputs).mapM midOutputBytes with
    | none => none
    | some outs =>
      some (beBytes 8 t.fee ++ beBytes 8 t.lockHeight ++
        beBytes 8 t.excessSig.length ++ t.excessSig ++
        beBytes 8 t.inputs.length ++ beBytes 8 t.outputs.length ++
        (goSort midInputLt t.inputs).flatMap (fun i => i.commit) ++ outs.flatten)

/-- Model of `Transaction.Read` (`src/unnamed/part_013`): fee, lock
height, bounded excess signature, counts, inputs and outputs, and then
the `sort.IsSorted` consensus checks on the decoded inputs and
outputs. -/
def midTxRead (s : Bytes) : Option (MidTx × Bytes) :=
  match pU64 s with
  | none => none
  | some (fee, s1) =>
    match pU64 s1 with
    | none => none
    | some (lockHeight, s2) =>
      match pU64 s2 with
      | none => none
      | some (sigLen, s3) =>
        if maxSignatureSize < sigLen then none
        else match pBytes sigLen s3 with
          | none => none
          | some (sig, s4) =>
            match pU64 s4 with
            | none => none
            | some (inputs, s5) =>
              match pU64 s5 with
              | none => none
              | some (outputs, s6) =>
                match pCount midInputRead inputs s6 with
                | none => none
                | some (ins, s7) =>
                  match pCount midOutputRead outputs s7 with
                  | none => none
                  | some (outs, s8) =>
                    if ¬ goIsSorted midInputLt ins then none
                    else if ¬ goIsSorted midOutputLt outs then none
                    else some (⟨ins, outs, fee, lockHeight, sig⟩, s8)

/-! ## Message framing (`src/src/p2p/protocol.go` lines 63-106,
`src/src/p2p/messages.go` lines 18-61)

`WriteMessage` serializes the body, emits the 11-byte header (2-byte
magic, the type byte, the `uint64` body length) and then the body.
`ReadMessage` parses the header from an `io.LimitReader` of 11 bytes
(`Header.Read` consumes exactly 11 bytes on success, so sequential
parsing is equivalent), validates the magic (`validateMagic` compares
against the literal bytes `0x1e 0xc5`), rejects a type other than the
expected message's, rejects a length above `MaxMsgLen`, and hands the
body to the message decoder through an `io.LimitReader` of the declared
length — modelled by `List.take`.  On success it returns
`HeaderLen + header.Len`. -/

/-- Typed protocol message (the twelve kinds of the message taxonomy). -/
inductive Msg where
  | error (code : Nat) (message : Bytes)
  | hand (h : Hand)
  | shake (s : Shake)
  | ping (totalDifficulty height : Nat)
  | pong (totalDifficulty height : Nat)
  | getPeerAddrs (capabilities : Nat)
  | peerAddrs (peers : List GoTCPAddr)
  | getHeaders (hashes : List Bytes)
  | headers (hs : List MidHeader)
  | getBlock (hash : Bytes)
  | block (b : MidBlock)
  | transaction (t : MidTx)
deriving Repr, DecidableEq

/-- The `Type()` discriminant of each message kind. -/
def Msg.type : Msg → Nat
  | .error _ _ => msgTypeError
  | .hand _ => msgTypeHand
  | .shake _ => msgTypeShake
  | .ping _ _ => msgTypePing
  | .pong _ _ => msgTypePong
  | .getPeerAddrs _ => msgTypeGetPeerAddrs
  | .peerAddrs _ => msgTypePeerAddrs
  | .getHeaders _ => msgTypeGetHeaders
  | .headers _ => msgTypeHeaders
  | .getBlock _ => msgTypeGetBlock
  | .block _ => msgTypeBlock
  | .transaction _ => msgTypeTransaction

/-- Model of `BlockHeaders.Bytes`: `Fatal` (`none`) above
`MaxBlockHeaders`, then a `uint16` count and the headers. -/
def blockHeadersBytes (hs : List MidHeader) : Option Bytes :=
  if maxBlockHeaders < hs.length then none
  else match hs.mapM midHeaderBytes with
    | none => none
    | some bss => some (beBytes 2 hs.length ++ bss.flatten)

/-- Model of `BlockHeaders.Read`: rejects a declared count above
`MaxBlockHeaders`, then reads that many headers. -/
def blockHeadersRead (s : Bytes) : Option (List MidHeader × Bytes) :=
  match pU16 s with
  | none => none
  | some (count, s1) =>
    if maxBlockHeaders < count then none
    else pCount midHeaderRead count s1

/-- The body serializer `msg.Bytes()` of each message kind
(`logrus.Fatal` conditions are `none`). -/
def msgBytes : Msg → Option Bytes
  | .error code message => some (peerErrorBytes code message)
  | .hand h => handBytes h
  | .shake s => some (shakeBytes s)
  | .ping td h => some (pingBytes td h)
  | .pong td h => some (pingBytes td h)
  | .getPeerAddrs caps => some (getPeerAddrsBytes caps)
  | .peerAddrs peers => peerAddrsBytes peers
  | .getHeaders hashes => locatorBytes hashes
  | .headers hs => blockHeadersBytes hs
  | .getBlock hash => getBlockBytes hash
  | .block b => midBlockBytes b
  | .transaction t => midTxBytes t

/-- The body decoder `msg.Read(limitReader)` for the expected message
type: decodes a value of that kind from the body prefix (residual body
bytes are not an error for `ReadMessage`). -/
def msgRead (t : Nat) (body : Bytes) : Option Msg :=
  if t = msgTypeError then
    match peerErrorRead body with
    | none => none
    | some ((code, message), _) => some (.error code message)
  else if t = msgTypeHand then
    match handRead body with
    | none => none
    | some (h, _) => some (.hand h)
  else if t = msgTypeShake then
    match shakeRead body with
    | none => none
    | some (sh, _) => some (.shake sh)
  else if t = msgTypePing then
    match pingRead body with
    | none => none
    | some ((td, h), _) => some (.ping td h)
  else if t = msgTypePong then
    match pingRead body with
    | none => none
    | some ((td, h), _) => some (.pong td h)
  else if t = msgTypeGetPeerAddrs then
    match getPeerAddrsRead body with
    | none => none
    | some (caps, _) => some (.getPeerAddrs caps)
  else if t = msgTypePeerAddrs then
    match peerAddrsRead body with
    | none => none
    | some (peers, _) => some (.peerAddrs peers)
  else if t = msgTypeGetHeaders then
    match locatorRead body with
    | none => none
    | some (hashes, _) => some (.getHeaders hashes)
  else if t = msgTypeHeaders then
    match blockHeadersRead body with
    | none => none
    | some (hs, _) => some (.headers hs)
  else if t = msgTypeGetBlock then
    match getBlockRead body with
    | none => none
    | some (hash, _) => some (.getBlock hash)
  else if t = msgTypeBlock then
    match midBlockRead body with
    | none => none
    | some (b, _) => some (.block b)
  else if t = msgTypeTransaction then
    match midTxRead body with
    | none => none
    | some (t, _) => some (.transaction t)
  else none

/-- Model of `WriteMessage`: the header (magic, type, body length as
`uint64`) followed by the body. -/
def writeMessage (m : Msg) : Option Bytes :=
  match msgBytes m with
  | none => none
  | some data =>
    some (magicCode ++ beBytes 1 (Msg.type m) ++ beBytes 8 data.length ++ data)

/-- Model of `Header.Read`: the two magic bytes (validated against the
literal `0x1e 0xc5`), the type byte and the `uint64` length. -/
def headerRead (s : Bytes) : Option ((Nat × Nat) × Bytes) :=
  match pBytes 2 s with
  | none => none
  | some (magic, s1) =>
    if magic ≠ magicCode then none
    else match pU8 s1 with
    | none => none
    | some (t, s2) =>
      match pU64 s2 with
      | none => none
      | some (len, s3) => some ((t, len), s3)

/-- Model of `ReadMessage` expecting a message of type `t`: header,
magic/type/length validation, then the body decoder over the
length-limited body; returns the decoded message and
`HeaderLen + header.Len`. -/
def readMessage (t : Nat) (s : Bytes) : Option (Msg × Nat) :=
  match headerRead s with
  | none => none
  | some ((ht, len), rest) =>
    if ht ≠ t then none
    else if maxMsgLen < len then none
    else match msgRead t (rest.take len) with
      | none => none
      | some m => some (m, headerLen + len)

/-! ## Well-formedness of message values

These predicates collect the machine-integer range constraints of the Go
struct field types together with the length guards and sortedness
invariants the serializers require.  They are exactly the conditions
under which a message kind round-trips through the wire format. -/

/-- A `net.TCPAddr` whose serialization round-trips: a 4-byte IPv4
address (the IPv6 write path is truncated to 8 bytes and its read path
always fails, see `serializeTCPAddr`/`deserializeTCPAddr`) and an
in-range port. -/
def wfAddr (a : GoTCPAddr) : Prop := a.ip.length = 4 ∧ a.port < 2 ^ 16

def wfHand (h : Hand) : Prop :=
  h.version = protocolVersion ∧ h.capabilities < 2 ^ 32 ∧ h.nonce < 2 ^ 64 ∧
    h.totalDifficulty < 2 ^ 64 ∧ wfAddr h.senderAddr ∧ wfAddr h.receiverAddr ∧
    h.userAgent.length < 2 ^ 64

def wfShake (s : Shake) : Prop :=
  s.version = protocolVersion ∧ s.capabilities < 2 ^ 32 ∧ s.totalDifficulty < 2 ^ 64 ∧
    s.userAgent.length < 2 ^ 64

def wfMidHeader (b : MidHeader) : Prop :=
  b.version < 2 ^ 16 ∧ b.height < 2 ^ 64 ∧ b.previous.length = blockHashSize ∧
    -(2 ^ 63) ≤ b.timestamp ∧ b.timestamp < 2 ^ 63 ∧
    b.utxoRoot.length = blockHashSize ∧ b.rangeProofRoot.length = blockHashSize ∧
    b.kernelRoot.length = blockHashSize ∧ b.nonce < 2 ^ 64 ∧ b.difficulty < 2 ^ 64 ∧
    b.totalDifficulty < 2 ^ 64 ∧ b.powNonces.length = proofSize ∧
    ∀ n ∈ b.powNonces, n < 2 ^ 32

def wfMidOutput (o : MidOutput) : Prop :=
  o.features < 2 ^ 8 ∧ o.commit.length = pedersenCommitmentSize ∧
    o.switchCommitHash.length = switchCommitHashSize ∧
    o.proofLen = o.proof.length ∧ o.proof.length ≤ maxProofSize

def wfMidKernel (k : MidKernel) : Prop :=
  k.features < 2 ^ 8 ∧ k.fee < 2 ^ 64 ∧ k.lockHeight < 2 ^ 64 ∧
    k.excess.length = pedersenCommitmentSize ∧ k.excessSig.length ≤ maxSignatureSize

def wfMidBlock (b : MidBlock) : Prop :=
  wfMidHeader b.header ∧
    (∀ i ∈ b.inputs, i.commit.length = pedersenCommitmentSize) ∧
    (∀ o ∈ b.outputs, wfMidOutput o) ∧ (∀ k ∈ b.kernels, wfMidKernel k) ∧
    b.inputs.length < 2 ^ 64 ∧ b.outputs.length < 2 ^ 64 ∧ b.kernels.length < 2 ^ 64 ∧
    b.inputs.Pairwise (fun x y => midInputLt y x = false) ∧
    b.outputs.Pairwise (fun x y => midOutputLt y x = false) ∧
    b.kernels.Pairwise (fun x y => midKernelLt y x = false)

def wfMidTx (t : MidTx) : Prop :=
  (∀ i ∈ t.inputs, i.commit.length = pedersenCommitmentSize) ∧
    (∀ o ∈ t.outputs, wfMidOutput o) ∧ t.fee < 2 ^ 64 ∧ t.lockHeight < 2 ^ 64 ∧
    t.excessSig.length ≤ maxSignatureSize ∧
    t.inputs.length < 2 ^ 64 ∧ t.outputs.length < 2 ^ 64 ∧
    t.inputs.Pairwise (fun x y => midInputLt y x = false) ∧
    t.outputs.Pairwise (fun x y => midOutputLt y x = false)

/-- The well-formed messages: field values within their Go machine-type
ranges, list lengths within the serializers' bounds, and the consensus
collections already sorted (so that the in-place `sort.Sort` of the
encoder leaves them unchanged). -/
def wfMsg : Msg → Prop
  | .error code message => code < 2 ^ 32 ∧ message.length < 2 ^ 64
  | .hand h => wfHand h
  | .shake s => wfShake s
  | .ping td h => td < 2 ^ 64 ∧ h < 2 ^ 64
  | .pong td h => td < 2 ^ 64 ∧ h < 2 ^ 64
  | .getPeerAddrs caps => caps < 2 ^ 32
  | .peerAddrs peers => peers.length ≤ maxPeerAddrs ∧ ∀ a ∈ peers, wfAddr a
  | .getHeaders hashes => hashes.length ≤ maxLocators ∧ ∀ h ∈ hashes, h.length = blockHashSize
  | .headers hs => hs.length ≤ maxBlockHeaders ∧ ∀ h ∈ hs, wfMidHeader h
  | .getBlock hash => hash.length = blockHashSize
  | .block b => wfMidBlock b
  | .transaction t => wfMidTx t

theorem mapM_eq_some {α β : Type} (enc : α → Option β) (f : α → β) (l : List α)
    (h : ∀ x ∈ l, enc x = some (f x)) : l.mapM enc = some (l.map f) := by
  induction l with
  | nil => rfl
  | cons a as ih =>
    rw [List.mapM_cons, h a (by simp), ih (fun x hx => h x (by simp [hx]))]
    rfl

theorem serializeTCPAddr_wf {a : GoTCPAddr} (h : wfAddr a) :
    serializeTCPAddr a = some ([0] ++ a.ip ++ beBytes 2 a.port) := by
  obtain ⟨hip, hport⟩ := h
  simp [serializeTCPAddr, goTo4, hip]

theorem deserializeTCPAddr_append {ip : Bytes} {port : Nat} (hip : ip.length = 4)
    (hport : port < 2 ^ 16) (rest : Bytes) :
    deserializeTCPAddr ([0] ++ (ip ++ (beBytes 2 port ++ rest))) = some (⟨ip, port⟩, rest) := by
  have h0 : ([0] ++ (ip ++ (beBytes 2 port ++ rest)) : Bytes)
      = beBytes 1 0 ++ (ip ++ (beBytes 2 port ++ rest)) := by
    norm_num [beBytes, bytesLE]
  simp only [deserializeTCPAddr, h0,
    pU8_append (show (0 : Nat) < 256 by norm_num), pBytes_append hip, pU16_append hport]
  simp

theorem shakeRead_append {s : Shake} (h : wfShake s) (rest : Bytes) :
    shakeRead (shakeBytes s ++ rest) = some (s, rest) := by
  obtain ⟨sv, sc, st2, su⟩ := s
  obtain ⟨hv, hc, ht, hu⟩ := h
  simp only at hv hc ht hu
  subst hv
  simp only [shakeBytes, shakeRead, List.append_assoc,
    pU32_append (show protocolVersion < 2 ^ 32 by norm_num [protocolVersion]),
    pU32_append hc, pU64_append ht, pU64_append hu, pBytes_append rfl]
  simp

theorem handRoundtrip {h : Hand} (hwf : wfHand h) (rest : Bytes) :
    ∃ bs, handBytes h = some bs ∧ handRead (bs ++ rest) = some (h, rest) := by
  obtain ⟨hv2, hc, hn, ht, hs, hr, hu⟩ := hwf
  refine ⟨_, by rw [handBytes, serializeTCPAddr_wf hs, serializeTCPAddr_wf hr], ?_⟩
  obtain ⟨hv, hcap, hnn, htd, hsa, hra, hua⟩ := h
  simp only at hv2 hc hn ht hs hr hu
  subst hv2
  simp only [handRead, List.append_assoc,
    pU32_append (show protocolVersion < 2 ^ 32 by norm_num [protocolVersion]),
    pU32_append hc, pU64_append hn, pU64_append ht,
    deserializeTCPAddr_append hs.1 hs.2, deserializeTCPAddr_append hr.1 hr.2,
    pU64_append hu, pBytes_append rfl]
  simp

theorem pingRead_append {td h : Nat} (htd : td < 2 ^ 64) (hh : h < 2 ^ 64) (rest : Bytes) :
    pingRead (pingBytes td h ++ rest) = some ((td, h), rest) := by
  simp only [pingBytes, pingRead, List.append_assoc, pU64_append htd, pU64_append hh]

theorem peerErrorRead_append {code : Nat} {message : Bytes} (hc : code < 2 ^ 32)
    (hm : message.length < 2 ^ 64) (rest : Bytes) :
    peerErrorRead (peerErrorBytes code message ++ rest) = some ((code, message), rest) := by
  simp only [peerErrorBytes, peerErrorRead, List.append_assoc, pU32_append hc,
    pU64_append hm, pBytes_append rfl]

theorem getPeerAddrsRead_append {caps : Nat} (hc : caps < 2 ^ 32) (rest : Bytes) :
    getPeerAddrsRead (getPeerAddrsBytes caps ++ rest) = some (caps, rest) := by
  simp only [getPeerAddrsBytes, getPeerAddrsRead, pU32_append hc]

theorem getBlockRead_append {hash : Bytes} (hh : hash.length = blockHashSize) (rest : Bytes) :
    getBlockRead (hash ++ rest) = some (hash, rest) := by
  simp only [getBlockRead, pBytes_append hh]

theorem peerAddrsRoundtrip {peers : List GoTCPAddr} (hlen : peers.length ≤ maxPeerAddrs)
    (hwf : ∀ a ∈ peers, wfAddr a) (rest : Bytes) :
    ∃ bs, peerAddrsBytes peers = some bs ∧ peerAddrsRead (bs ++ rest) = some (peers, rest) := by
  have hmap : peers.mapM serializeTCPAddr
      = some (peers.map (fun a => [0] ++ a.ip ++ beBytes 2 a.port)) :=
    mapM_eq_some _ _ _ (fun a ha => serializeTCPAddr_wf (hwf a ha))
  refine ⟨_, by rw [peerAddrsBytes, if_neg (by omega), hmap], ?_⟩
  rw [peerAddrsRead]
  have hcount : peers.length < 2 ^ 32 := by
    have : maxPeerAddrs < 2 ^ 32 := by norm_num [maxPeerAddrs]
    omega
  rw [List.append_assoc, pU32_append hcount]
  simp only
  rw [if_neg (by omega)]
  have hflat : (peers.map (fun a => [0] ++ a.ip ++ beBytes 2 a.port)).flatten
      = peers.flatMap (fun a => [0] ++ (a.ip ++ beBytes 2 a.port)) := by
    rw [List.flatMap]
    simp [List.append_assoc]
  rw [hflat]
  exact pCount_append peers (fun a ha r => by
    have h1 := (hwf a ha).1
    have h2 := (hwf a ha).2
    have := deserializeTCPAddr_append h1 h2 r
    simpa [List.append_assoc] using this) rest

theorem locatorRoundtrip {hashes : List Bytes} (hlen : hashes.length ≤ maxLocators)
    (hwf : ∀ h ∈ hashes, h.length = blockHashSize) (rest : Bytes) :
    ∃ bs, locatorBytes hashes = some bs ∧ locatorRead (bs ++ rest) = some (hashes, rest) := by
  refine ⟨_, by rw [locatorBytes, if_neg (by omega)], ?_⟩
  rw [locatorRead]
  have hcount : hashes.length < 256 := by
    have : maxLocators < 256 := by norm_num [maxLocators]
    omega
  rw [List.append_assoc, pU8_append hcount]
  simp only
  rw [if_neg (by omega)]
  have hflat : hashes.flatten = hashes.flatMap (fun h => h) := by
    simp [List.flatMap]
  rw [hflat]
  exact pCount_append hashes (fun h hh r => pBytes_append (hwf h hh) r) rest

/-- Unchecked byte image of a legacy `BlockHeader`, the value
`BlockHeader.Bytes` writes when its length guards pass. -/
def midHeaderBytesU (b : MidHeader) : Bytes :=
  beBytes 2 b.version ++ beBytes 8 b.height ++ b.previous ++ encI64 b.timestamp ++
    b.utxoRoot ++ b.rangeProofRoot ++ b.kernelRoot ++ beBytes 8 b.nonce ++
    beBytes 8 b.difficulty ++ beBytes 8 b.totalDifficulty ++
    b.powNonces.flatMap (fun n => beBytes 4 n)

theorem midHeaderBytes_wf {b : MidHeader} (h : wfMidHeader b) :
    midHeaderBytes b = some (midHeaderBytesU b) := by
  obtain ⟨h1, h2, h3, h4, h5, h6, h7, h8, h9, h10, h11, h12, h13⟩ := h
  have hpow : legacyProofBytes b.powNonces
      = some (b.powNonces.flatMap (fun n => beBytes 4 n)) := by
    rw [legacyProofBytes, if_pos h12]
  rw [midHeaderBytes, if_neg (by simp [h3]), if_neg (by simp [h6, h7, h8]), hpow,
    midHeaderBytesU]

theorem midHeaderRead_append {b : MidHeader} (h : wfMidHeader b) (rest : Bytes) :
    midHeaderRead (midHeaderBytesU b ++ rest) = some (b, rest) := by
  obtain ⟨bv, bh2, bp, bts, bu, br2, bk, bn, bd, btd, bpw⟩ := b
  obtain ⟨h1, h2, h3, h4, h5, h6, h7, h8, h9, h10, h11, h12, h13⟩ := h
  simp only at h1 h2 h3 h4 h5 h6 h7 h8 h9 h10 h11 h12 h13
  have hcount : pCount pU32 proofSize (bpw.flatMap (fun n => beBytes 4 n) ++ rest)
      = some (bpw, rest) := by
    rw [← h12]
    exact pCount_append bpw (fun n hn r => pU32_append (h13 n hn) r) rest
  simp only [midHeaderBytesU, midHeaderRead, List.append_assoc, pU16_append h1,
    pU64_append h2, pBytes_append h3, pI64_append h4 h5, pBytes_append h6,
    pBytes_append h7, pBytes_append h8, pU64_append h9, pU64_append h10,
    pU64_append h11, hcount]

theorem midOutputBytes_wf {o : MidOutput} (h : wfMidOutput o) :
    midOutputBytes o = some (midOutputBytesU o) := by
  obtain ⟨h1, h2, h3, h4, h5⟩ := h
  rw [midOutputBytes, if_neg (by omega), if_neg (by omega), if_neg (by omega)]

theorem midOutputRead_append {o : MidOutput} (h : wfMidOutput o) (rest : Bytes) :
    midOutputRead (midOutputBytesU o ++ rest) = some (o, rest) := by
  obtain ⟨of, oc, os, op, ol⟩ := o
  obtain ⟨h1, h2, h3, h4, h5⟩ := h
  simp only at h1 h2 h3 h4 h5
  subst h4
  have hlen : op.length < 2 ^ 64 := by
    have : maxProofSize < 2 ^ 64 := by norm_num [maxProofSize]
    omega
  simp only [midOutputBytesU, midOutputRead, List.append_assoc,
    pU8_append (show of < 256 by omega),
    pBytes_append h2, pBytes_append h3, pU64_append hlen]
  rw [if_neg (by omega)]
  rw [pBytes_append rfl]

theorem midKernelBytes_wf {k : MidKernel} (h : wfMidKernel k) :
    midKernelBytes k = some (midKernelBytesU k) := by
  obtain ⟨h1, h2, h3, h4, h5⟩ := h
  rw [midKernelBytes, if_neg (by omega), if_neg (by omega)]

theorem midKernelRead_append {k : MidKernel} (h : wfMidKernel k) (rest : Bytes) :
    midKernelRead (midKernelBytesU k ++ rest) = some (k, rest) := by
  obtain ⟨kf, kfee, kl, ke, ks⟩ := k
  obtain ⟨h1, h2, h3, h4, h5⟩ := h
  simp only at h1 h2 h3 h4 h5
  have hlen : ks.length < 2 ^ 64 := by
    have : maxSignatureSize < 2 ^ 64 := by norm_num [maxSignatureSize]
    omega
  simp only [midKernelBytesU, midKernelRead, List.append_assoc,
    pU8_append (show kf < 256 by omega),
    pU64_append h2, pU64_append h3, pBytes_append h4, pU64_append hlen]
  rw [if_neg (by omega)]
  rw [pBytes_append rfl]

theorem midInputRead_append {i : MidInput} (h : i.commit.length = pedersenCommitmentSize)
    (rest : Bytes) : midInputRead (i.commit ++ rest) = some (i, rest) := by
  simp only [midInputRead, pBytes_append h]

theorem goIsSorted_of_pairwise {α : Type} {lt : α → α → Bool} {l : List α}
    (h : l.Pairwise (fun a b => lt b a = false)) : goIsSorted lt l = true := by
  induction l with
  | nil => rfl
  | cons x xs ih =>
    cases xs with
    | nil => rfl
    | cons y ys =>
      rw [goIsSorted]
      have hxy : lt y x = false := (List.pairwise_cons.mp h).1 y (by simp)
      simp only [hxy, Bool.not_false, Bool.true_and]
      exact ih (List.pairwise_cons.mp h).2

theorem blockHeadersRoundtrip {hs : List MidHeader} (hlen : hs.length ≤ maxBlockHeaders)
    (hwf : ∀ x ∈ hs, wfMidHeader x) (rest : Bytes) :
    ∃ bs, blockHeadersBytes hs = some bs ∧ blockHeadersRead (bs ++ rest) = some (hs, rest) := by
  have hmap : hs.mapM midHeaderBytes = some (hs.map midHeaderBytesU) :=
    mapM_eq_some _ _ _ (fun x hx => midHeaderBytes_wf (hwf x hx))
  refine ⟨_, by rw [blockHeadersBytes, if_neg (by omega), hmap], ?_⟩
  rw [blockHeadersRead]
  have hcount : hs.length < 2 ^ 16 := by
    have : maxBlockHeaders < 2 ^ 16 := by norm_num [maxBlockHeaders]
    omega
  rw [List.append_assoc, pU16_append hcount]
  simp only
  rw [if_neg (by omega)]
  have hflat : (hs.map midHeaderBytesU).flatten = hs.flatMap midHeaderBytesU := by
    simp [List.flatMap]
  rw [hflat]
  exact pCount_append hs (fun x hx r => midHeaderRead_append (hwf x hx) r) rest

theorem midBlockRoundtrip {b : MidBlock} (h : wfMidBlock b) (rest : Bytes) :
    ∃ bs, midBlockBytes b = some bs ∧ midBlockRead (bs ++ rest) = some (b, rest) := by
  obtain ⟨hh, hi, ho, hk, hli, hlo, hlk, hsi, hso, hsk⟩ := h
  have hsortI : goSort midInputLt b.inputs = b.inputs := goSort_of_pairwise hsi
  have hsortO : goSort midOutputLt b.outputs = b.outputs := goSort_of_pairwise hso
  have hsortK : goSort midKernelLt b.kernels = b.kernels := goSort_of_pairwise hsk
  have hmapO : b.outputs.mapM midOutputBytes = some (b.outputs.map midOutputBytesU) :=
    mapM_eq_some _ _ _ (fun x hx => midOutputBytes_wf (ho x hx))
  have hmapK : b.kernels.mapM midKernelBytes = some (b.kernels.map midKernelBytesU) :=
    mapM_eq_some _ _ _ (fun x hx => midKernelBytes_wf (hk x hx))
  have henc : midBlockBytes b = some (midHeaderBytesU b.header ++
      beBytes 8 b.inputs.length ++ beBytes 8 b.outputs.length ++ beBytes 8 b.kernels.length ++
      b.inputs.flatMap (fun i => i.commit) ++ (b.outputs.map midOutputBytesU).flatten ++
      (b.kernels.map midKernelBytesU).flatten) := by
    rw [midBlockBytes, midHeaderBytes_wf hh, hsortI, hsortO, hsortK, hmapO, hmapK]
  refine ⟨_, henc, ?_⟩
  have hflatO : (b.outputs.map midOutputBytesU).flatten = b.outputs.flatMap midOutputBytesU := by
    simp [List.flatMap]
  have hflatK : (b.kernels.map midKernelBytesU).flatten = b.kernels.flatMap midKernelBytesU := by
    simp [List.flatMap]
  have hcountI : ∀ r, pCount midInputRead b.inputs.length
      (b.inputs.flatMap (fun i => i.commit) ++ r) = some (b.inputs, r) :=
    fun r => pCount_append b.inputs (fun x hx r2 => midInputRead_append (hi x hx) r2) r
  have hcountO : ∀ r, pCount midOutputRead b.outputs.length
      (b.outputs.flatMap midOutputBytesU ++ r) = some (b.outputs, r) :=
    fun r => pCount_append b.outputs (fun x hx r2 => midOutputRead_append (ho x hx) r2) r
  have hcountK : ∀ r, pCount midKernelRead b.kernels.length
      (b.kernels.flatMap midKernelBytesU ++ r) = some (b.kernels, r) :=
    fun r => pCount_append b.kernels (fun x hx r2 => midKernelRead_append (hk x hx) r2) r
  simp only [midBlockRead, List.append_assoc, midHeaderRead_append hh,
    pU64_append hli, pU64_append hlo, pU64_append hlk, hflatO, hflatK,
    hcountI, hcountO, hcountK]

theorem midTxRoundtrip {t : MidTx} (h : wfMidTx t) (rest : Bytes) :
    ∃ bs, midTxBytes t = some bs ∧ midTxRead (bs ++ rest) = some (t, rest) := by
  obtain ⟨hi, ho, hf, hl, hs2, hli, hlo, hsi, hso⟩ := h
  have hsortI : goSort midInputLt t.inputs = t.inputs := goSort_of_pairwise hsi
  have hsortO : goSort midOutputLt t.outputs = t.outputs := goSort_of_pairwise hso
  have hmapO : t.outputs.mapM midOutputBytes = some (t.outputs.map midOutputBytesU) :=
    mapM_eq_some _ _ _ (fun x hx => midOutputBytes_wf (ho x hx))
  have henc : midTxBytes t = some (beBytes 8 t.fee ++ beBytes 8 t.lockHeight ++
      beBytes 8 t.excessSig.length ++ t.excessSig ++ beBytes 8 t.inputs.length ++
      beBytes 8 t.outputs.length ++ t.inputs.flatMap (fun i => i.commit) ++
      (t.outputs.map midOutputBytesU).flatten) := by
    rw [midTxBytes, if_neg (by omega), hsortI, hsortO, hmapO]
  refine ⟨_, henc, ?_⟩
  have hslen : t.excessSig.length < 2 ^ 64 := by
    have : maxSignatureSize < 2 ^ 64 := by norm_num [maxSignatureSize]
    omega
  have hflatO : (t.outputs.map midOutputBytesU).flatten = t.outputs.flatMap midOutputBytesU := by
    simp [List.flatMap]
  have hcountI : ∀ r, pCount midInputRead t.inputs.length
      (t.inputs.flatMap (fun i => i.commit) ++ r) = some (t.inputs, r) :=
    fun r => pCount_append t.inputs (fun x hx r2 => midInputRead_append (hi x hx) r2) r
  have hcountO : ∀ r, pCount midOutputRead t.outputs.length
      (t.outputs.flatMap midOutputBytesU ++ r) = some (t.outputs, r) :=
    fun r => pCount_append t.outputs (fun x hx r2 => midOutputRead_append (ho x hx) r2) r
  simp only [midTxRead, List.append_assoc, pU64_append hf, pU64_append hl,
    pU64_append hslen, pBytes_append rfl, pU64_append hli, pU64_append hlo,
    hflatO, hcountI, hcountO]
  rw [if_neg (by omega)]
  simp only [goIsSorted_of_pairwise hsi, goIsSorted_of_pairwise hso]
  simp

theorem headerRead_append {t len : Nat} (ht : t < 256) (hlen : len < 2 ^ 64) (rest : Bytes) :
    headerRead ((magicCode ++ (beBytes 1 t ++ (beBytes 8 len ++ rest)))) = some ((t, len), rest) := by
  simp only [headerRead, pBytes_append (show magicCode.length = 2 by decide),
    pU8_append ht, pU64_append hlen]
  simp

theorem length_frame (t len : Nat) (data : Bytes) :
    (magicCode ++ beBytes 1 t ++ beBytes 8 len ++ data).length = headerLen + data.length := by
  simp [magicCode, length_beBytes, headerLen]
  omega

theorem readMessage_of_body {t : Nat} {data : Bytes} {m : Msg}
    (ht : t < 256) (hlen : data.length ≤ maxMsgLen)
    (hdec : msgRead t data = some m) :
    readMessage t (magicCode ++ beBytes 1 t ++ beBytes 8 data.length ++ data)
      = some (m, headerLen + data.length) := by
  have hlen2 : data.length < 2 ^ 64 := by
    have : maxMsgLen < 2 ^ 64 := by norm_num [maxMsgLen]
    omega
  rw [readMessage]
  simp only [List.append_assoc]
  rw [headerRead_append ht hlen2]
  simp only
  rw [if_neg (by simp), if_neg (by omega)]
  rw [List.take_of_length_le (by simp), hdec]

/-- C4 (amended): for every message kind, writing a well-formed message
with `WriteMessage` and reading the produced bytes back with
`ReadMessage` (expecting the same type) succeeds and returns the original
message and the total byte count, provided the body fits in
`MaxMsgLen`.  Well-formed (`wfMsg`) means: field values within their Go
types' ranges, collection lengths within the serializer bounds, hand and
shake carrying the supported protocol version, addresses IPv4, and block
and transaction collections already sorted. -/
theorem c4_write_read_roundtrip (m : Msg) (hwf : wfMsg m) :
    ∃ bs, writeMessage m = some bs ∧
      (bs.length ≤ headerLen + maxMsgLen → readMessage (Msg.type m) bs = some (m, bs.length)) := by
  have frame : ∀ (data : Bytes), (hm : msgBytes m = some data) →
      (hd : ∀ rest2 : Bytes, True) →
      msgRead (Msg.type m) data = some m →
      ∃ bs, writeMessage m = some bs ∧
      (bs.length ≤ headerLen + maxMsgLen → readMessage (Msg.type m) bs = some (m, bs.length)) := by
    intro data hm _ hdec
    refine ⟨_, by rw [writeMessage, hm], fun hsz => ?_⟩
    have htlt : Msg.type m < 256 := by cases m <;> simp [Msg.type] <;> norm_num
      [msgTypeError, msgTypeHand, msgTypeShake, msgTypePing, msgTypePong,
       msgTypeGetPeerAddrs, msgTypePeerAddrs, msgTypeGetHeaders, msgTypeHeaders,
       msgTypeGetBlock, msgTypeBlock, msgTypeTransaction]
    rw [length_frame] at hsz ⊢
    exact readMessage_of_body htlt (by omega) hdec
  cases m with
  | error code message =>
    obtain ⟨h1, h2⟩ := hwf
    have hr := peerErrorRead_append h1 h2 []
    rw [List.append_nil] at hr
    refine frame _ rfl (fun _ => trivial) ?_
    simp [msgRead, Msg.type, msgTypeError, hr]
  | hand h =>
    obtain ⟨bs, henc, hread⟩ := handRoundtrip hwf []
    rw [List.append_nil] at hread
    refine frame bs (by simpa [msgBytes] using henc) (fun _ => trivial) ?_
    simp [msgRead, Msg.type, msgTypeHand, msgTypeError, hread]
  | shake s =>
    have hr := shakeRead_append hwf []
    rw [List.append_nil] at hr
    refine frame _ rfl (fun _ => trivial) ?_
    simp [msgRead, Msg.type, msgTypeShake, msgTypeError, msgTypeHand, hr]
  | ping td h =>
    have hr := pingRead_append hwf.1 hwf.2 []
    rw [List.append_nil] at hr
    refine frame _ rfl (fun _ => trivial) ?_
    simp [msgRead, Msg.type, msgTypePing, msgTypeError, msgTypeHand, msgTypeShake, hr]
  | pong td h =>
    have hr := pingRead_append hwf.1 hwf.2 []
    rw [List.append_nil] at hr
    refine frame _ rfl (fun _ => trivial) ?_
    simp [msgRead, Msg.type, msgTypePong, msgTypeError, msgTypeHand, msgTypeShake,
      msgTypePing, hr]
  | getPeerAddrs caps =>
    have hr := getPeerAddrsRead_append hwf []
    rw [List.append_nil] at hr
    refine frame _ rfl (fun _ => trivial) ?_
    simp [msgRead, Msg.type, msgTypeGetPeerAddrs, msgTypeError, msgTypeHand, msgTypeShake,
      msgTypePing, msgTypePong, hr]
  | peerAddrs peers =>
    obtain ⟨bs, henc, hread⟩ := peerAddrsRoundtrip hwf.1 hwf.2 []
    rw [List.append_nil] at hread
    refine frame bs (by simpa [msgBytes] using henc) (fun _ => trivial) ?_
    simp [msgRead, Msg.type, msgTypePeerAddrs, msgTypeError, msgTypeHand, msgTypeShake,
      msgTypePing, msgTypePong, msgTypeGetPeerAddrs, hread]
  | getHeaders hashes =>
    obtain ⟨bs, henc, hread⟩ := locatorRoundtrip hwf.1 hwf.2 []
    rw [List.append_nil] at hread
    refine frame bs (by simpa [msgBytes] using henc) (fun _ => trivial) ?_
    simp [msgRead, Msg.type, msgTypeGetHeaders, msgTypeError, msgTypeHand, msgTypeShake,
      msgTypePing, msgTypePong, msgTypeGetPeerAddrs, msgTypePeerAddrs, hread]
  | headers hs =>
    obtain ⟨bs, henc, hread⟩ := blockHeadersRoundtrip hwf.1 hwf.2 []
    rw [List.append_nil] at hread
    refine frame bs (by simpa [msgBytes] using henc) (fun _ => trivial) ?_
    simp [msgRead, Msg.type, msgTypeHeaders, msgTypeError, msgTypeHand, msgTypeShake,
      msgTypePing, msgTypePong, msgTypeGetPeerAddrs, msgTypePeerAddrs, msgTypeGetHeaders, hread]
  | getBlock hash =>
    have hr := getBlockRead_append hwf []
    rw [List.append_nil] at hr
    refine frame hash
      (by simp [msgBytes, getBlockBytes, show hash.length = blockHashSize from hwf])
      (fun _ => trivial) ?_
    simp [msgRead, Msg.type, msgTypeGetBlock, msgTypeError, msgTypeHand, msgTypeShake,
      msgTypePing, msgTypePong, msgTypeGetPeerAddrs, msgTypePeerAddrs, msgTypeGetHeaders,
      msgTypeHeaders, hr]
  | block b =>
    obtain ⟨bs, henc, hread⟩ := midBlockRoundtrip hwf []
    rw [List.append_nil] at hread
    refine frame bs (by simpa [msgBytes] using henc) (fun _ => trivial) ?_
    simp [msgRead, Msg.type, msgTypeBlock, msgTypeError, msgTypeHand, msgTypeShake,
      msgTypePing, msgTypePong, msgTypeGetPeerAddrs, msgTypePeerAddrs, msgTypeGetHeaders,
      msgTypeHeaders, msgTypeGetBlock, hread]
  | transaction t =>
    obtain ⟨bs, henc, hread⟩ := midTxRoundtrip hwf []
    rw [List.append_nil] at hread
    refine frame bs (by simpa [msgBytes] using henc) (fun _ => trivial) ?_
    simp [msgRead, Msg.type, msgTypeTransaction, msgTypeError, msgTypeHand, msgTypeShake,
      msgTypePing, msgTypePong, msgTypeGetPeerAddrs, msgTypePeerAddrs, msgTypeGetHeaders,
      msgTypeHeaders, msgTypeGetBlock, msgTypeBlock, hread]

/-- Witness for C4 (amended) at a concrete `Ping` message. -/
theorem c4_witness : ∃ bs, writeMessage (Msg.ping 1 2) = some bs ∧
    (bs.length ≤ headerLen + maxMsgLen →
      readMessage (Msg.type (Msg.ping 1 2)) bs = some (Msg.ping 1 2, bs.length)) :=
  c4_write_read_roundtrip (Msg.ping 1 2) ⟨by decide, by decide⟩

/-- Counterexample for C4 as stated: a `Shake` message with protocol
version 2 serializes fine (and fits in `MaxMsgLen`), but reading the
produced bytes back fails, because `shake.Read` rejects any version
other than `ProtocolVersion`; so the write-then-read round trip does not
succeed for every message of every kind. -/
theorem c4_counterexample :
    (writeMessage (Msg.shake ⟨2, 0, 0, []⟩)).isSome = true ∧
    ((writeMessage (Msg.shake ⟨2, 0, 0, []⟩)).getD []).length ≤ headerLen + maxMsgLen ∧
    readMessage msgTypeShake ((writeMessage (Msg.shake ⟨2, 0, 0, []⟩)).getD []) = none := by
  decide

theorem headerRead_some {input : Bytes} {h : Nat × Nat} {rest : Bytes}
    (he : headerRead input = some (h, rest)) :
    input.take 2 = magicCode ∧ rest = input.drop headerLen ∧ headerLen ≤ input.length := by
  rw [headerRead] at he
  rw [pBytes] at he
  by_cases h2 : 2 ≤ input.length
  · rw [if_pos h2] at he
    simp only at he
    by_cases hm : input.take 2 = magicCode
    · rw [if_neg (by simp [hm])] at he
      rw [pU8, pBytes] at he
      by_cases h3 : 1 ≤ (input.drop 2).length
      · rw [if_pos h3] at he
        simp only at he
        rw [pU64, pBytes] at he
        by_cases h4 : 8 ≤ ((input.drop 2).drop 1).length
        · rw [if_pos h4] at he
          simp only [Option.some.injEq, Prod.mk.injEq] at he
          refine ⟨hm, ?_, ?_⟩
          · rw [← he.2, List.drop_drop, List.drop_drop]
            rfl
          · simp only [List.length_drop] at h3 h4
            simp [headerLen]
            omega
        · rw [if_neg h4] at he
          exact absurd he (by simp)
      · rw [if_neg h3] at he
        exact absurd he (by simp)
    · rw [if_pos (by simp [hm])] at he
      exact absurd he (by simp)
  · rw [if_neg h2] at he
    exact absurd he (by simp)

/-- C5: `ReadMessage` reads an 11-byte header, errors when the magic
bytes differ from the configured code, errors when the header type
differs from the expected type, errors when the declared length exceeds
`MaxMsgLen`, and on success decodes exactly the declared number of body
bytes through the length-limited reader and returns
`header.Len + HeaderLen`. -/
theorem c5_read_message_checks (t : Nat) (input : Bytes) :
    (input.take 2 ≠ magicCode → readMessage t input = none) ∧
    (∀ ht len rest, headerRead input = some ((ht, len), rest) →
      (headerLen ≤ input.length ∧ rest = input.drop headerLen) ∧
      (ht ≠ t → readMessage t input = none) ∧
      (maxMsgLen < len → readMessage t input = none)) ∧
    (∀ m n, readMessage t input = some (m, n) →
      ∃ len, headerRead input = some ((t, len), input.drop headerLen) ∧
        len ≤ maxMsgLen ∧ msgRead t ((input.drop headerLen).take len) = some m ∧
        n = headerLen + len) := by
  refine ⟨?_, ?_, ?_⟩
  · intro hm
    rw [readMessage, headerRead, pBytes]
    by_cases h2 : 2 ≤ input.length
    · rw [if_pos h2]
      simp only
      rw [if_pos (by simpa using hm)]
    · rw [if_neg h2]
  · intro ht len rest he
    obtain ⟨hmagic, hrest, hlen⟩ := headerRead_some he
    refine ⟨⟨hlen, hrest⟩, ?_, ?_⟩
    · intro hne
      rw [readMessage, he]
      simp only
      rw [if_pos hne]
    · intro hover
      rw [readMessage, he]
      simp only
      by_cases hne : ht ≠ t
      · rw [if_pos hne]
      · rw [if_neg hne, if_pos hover]
  · intro m n hr
    rw [readMessage] at hr
    cases he : headerRead input with
    | none => rw [he] at hr; exact absurd hr (by simp)
    | some pr =>
      obtain ⟨⟨ht, len⟩, rest⟩ := pr
      rw [he] at hr
      simp only at hr
      by_cases hne : ht ≠ t
      · rw [if_pos hne] at hr
        exact absurd hr (by simp)
      · rw [if_neg hne] at hr
        push_neg at hne
        subst hne
        by_cases hover : maxMsgLen < len
        · rw [if_pos hover] at hr
          exact absurd hr (by simp)
        · rw [if_neg hover] at hr
          obtain ⟨hmagic, hrest, hlen⟩ := headerRead_some he
          subst hrest
          cases hd : msgRead ht (List.take len (input.drop headerLen)) with
          | none => rw [hd] at hr; exact absurd hr (by simp)
          | some m2 =>
            rw [hd] at hr
            simp only [Option.some.injEq, Prod.mk.injEq] at hr
            exact ⟨len, rfl, by omega, by rw [hd, hr.1], hr.2.symm⟩

/-- Witness for C5 at concrete inputs: bad magic, a type mismatch, and
an oversized declared length are each rejected. -/
theorem c5_witness :
    readMessage msgTypePing [0, 0, 0] = none ∧
    readMessage msgTypePing (magicCode ++ [msgTypePong] ++ beBytes 8 0) = none ∧
    readMessage msgTypePing (magicCode ++ [msgTypePing] ++ beBytes 8 20000001) = none :=
  ⟨(c5_read_message_checks msgTypePing [0, 0, 0]).1 (by decide),
   ((c5_read_message_checks msgTypePing (magicCode ++ [msgTypePong] ++ beBytes 8 0)).2.1
      msgTypePong 0 [] (by decide)).2.1 (by decide),
   ((c5_read_message_checks msgTypePing (magicCode ++ [msgTypePing] ++ beBytes 8 20000001)).2.1
      msgTypePing 20000001 [] (by decide)).2.2 (by decide)⟩

/-- C6: each length-prefixed wire collection is rejected when its
declared count exceeds its documented maximum: more than
`MaxPeerAddrs` (256) peer addresses, more than `MaxBlockHeaders` (512)
headers, or more than `MaxLocators` (14) locator hashes. -/
theorem c6_bound_enforcement :
    (∀ n rest, maxPeerAddrs < n → n < 2 ^ 32 →
      peerAddrsRead (beBytes 4 n ++ rest) = none) ∧
    (∀ n rest, maxBlockHeaders < n → n < 2 ^ 16 →
      blockHeadersRead (beBytes 2 n ++ rest) = none) ∧
    (∀ n rest, maxLocators < n → n < 2 ^ 8 →
      locatorRead (beBytes 1 n ++ rest) = none) := by
  refine ⟨?_, ?_, ?_⟩
  · intro n rest hn hb
    rw [peerAddrsRead, pU32_append hb]
    simp only
    rw [if_pos hn]
  · intro n rest hn hb
    rw [blockHeadersRead, pU16_append hb]
    simp only
    rw [if_pos hn]
  · intro n rest hn hb
    rw [locatorRead, pU8_append (by simpa using hb)]
    simp only
    rw [if_pos hn]

/-- Witness for C6 at the smallest oversized counts. -/
theorem c6_witness :
    peerAddrsRead (beBytes 4 257) = none ∧
    blockHeadersRead (beBytes 2 513) = none ∧
    locatorRead (beBytes 1 15) = none := by
  refine ⟨?_, ?_, ?_⟩
  · have h := c6_bound_enforcement.1 257 [] (by decide) (by decide)
    simpa using h
  · have h := c6_bound_enforcement.2.1 513 [] (by decide) (by decide)
    simpa using h
  · have h := c6_bound_enforcement.2.2 15 [] (by decide) (by decide)
    simpa using h

/-! ## Current-era block (src/unnamed/part_015): inputs, outputs and
kernels are sorted by their blake2b hashes.  The blake2b function and the
`bulletproofs` Point / BulletProof codecs live outside this repository;
blake2b is passed as a function parameter, a Point is modelled by its
`PedersenCommitmentSize`-byte serialized form, and a BulletProof by its
byte string (its reader consumes exactly the declared window of the limit
reader). -/

/-- Modelled from the spec: `secp256k1zkp.SecretKeySize` (32 bytes), the
size of `TotalKernelOffset`; the constant's definition is absent from the
supplied sources. -/
def secretKeySize : Nat := 32

/-- Current-era `Input`: features byte and a Pedersen commitment. -/
structure CurInput where
  features : Nat
  commit : Bytes
deriving Repr, DecidableEq

/-- Model of current-era `Input.Bytes`. -/
def curInputBytes (i : CurInput) : Bytes := beBytes 1 i.features ++ i.commit

/-- Model of current-era `Input.Read`. -/
def curInputRead (s : Bytes) : Option (CurInput × Bytes) :=
  match pU8 s with
  | none => none
  | some (f, s1) =>
    match pBytes pedersenCommitmentSize s1 with
    | none => none
    | some (c, s2) => some (⟨f, c⟩, s2)

/-- Current-era `Output`: features, commitment point, range proof. -/
structure CurOutput where
  features : Nat
  commit : Bytes
  rangeProof : Bytes
deriving Repr, DecidableEq

/-- Model of `Output.BytesWithoutProof` (hashing covers only this part). -/
def curOutputBytesWithoutProof (o : CurOutput) : Bytes :=
  beBytes 1 o.features ++ o.commit

/-- Model of current-era `Output.Bytes`: the proof-free part, then the
`uint64` proof length, then the proof bytes. -/
def curOutputBytes (o : CurOutput) : Bytes :=
  curOutputBytesWithoutProof o ++ beBytes 8 o.rangeProof.length ++ o.rangeProof

/-- Model of current-era `Output.Read`: features byte, commitment point,
proof length (rejected above `MaxProofSize`), then the proof read through
`io.LimitReader(r, proofLen)`. -/
def curOutputRead (s : Bytes) : Option (CurOutput × Bytes) :=
  match pU8 s with
  | none => none
  | some (f, s1) =>
    match pBytes pedersenCommitmentSize s1 with
    | none => none
    | some (c, s2) =>
      match pU64 s2 with
      | none => none
      | some (plen, s3) =>
        if maxProofSize < plen then none
        else
          match pBytes plen s3 with
          | none => none
          | some (pr, s4) => some (⟨f, c, pr⟩, s4)

/-- Current-era `TxKernel`. -/
structure CurKernel where
  features : Nat
  fee : Nat
  lockHeight : Nat
  excess : Bytes
  excessSig : Bytes
deriving Repr, DecidableEq

/-- Model of current-era `TxKernel.Bytes`. -/
def curKernelBytes (k : CurKernel) : Bytes :=
  beBytes 1 k.features ++ beBytes 8 k.fee ++ beBytes 8 k.lockHeight ++
    k.excess ++ k.excessSig

/-- Model of current-era `TxKernel.Read`. -/
def curKernelRead (s : Bytes) : Option (CurKernel × Bytes) :=
  match pU8 s with
  | none => none
  | some (f, s1) =>
    match pU64 s1 with
    | none => none
    | some (fee, s2) =>
      match pU64 s2 with
      | none => none
      | some (lock, s3) =>
        match pBytes pedersenCommitmentSize s3 with
        | none => none
        | some (ex, s4) =>
          match pBytes 64 s4 with
          | none => none
          | some (sg, s5) => some (⟨f, fee, lock, ex, sg⟩, s5)

/-- Current-era `BlockHeader` (the serialized fields; `TotalKernelSum`
and `Difficulty` are never serialized). -/
structure CurHeader where
  version : Nat
  height : Nat
  timestamp : Int
  previous : Bytes
  previousRoot : Bytes
  utxoRoot : Bytes
  rangeProofRoot : Bytes
  kernelRoot : Bytes
  totalKernelOffset : Bytes
  outputMmrSize : Nat
  kernelMmrSize : Nat
  totalDifficulty : Nat
  scalingDifficulty : Nat
  nonce : Nat
  pow : Proof
deriving Repr, DecidableEq

/-- Byte image of current-era `BlockHeader.Bytes`
(`bytesWithoutPOW` followed by `POW.Bytes`), before its length checks. -/
def curHeaderBytesU (h : CurHeader) : Bytes :=
  beBytes 2 h.version ++ beBytes 8 h.height ++ encI64 h.timestamp ++
    h.previous ++ h.previousRoot ++ h.utxoRoot ++ h.rangeProofRoot ++
    h.kernelRoot ++ h.totalKernelOffset ++ beBytes 8 h.outputMmrSize ++
    beBytes 8 h.kernelMmrSize ++ beBytes 8 h.totalDifficulty ++
    beBytes 4 h.scalingDifficulty ++ beBytes 8 h.nonce ++ Proof.bytes h.pow

/-- Model of current-era `BlockHeader.Bytes`: `logrus.Fatal` (modelled as
`none`) when one of the five hash fields is not `BlockHashSize` bytes. -/
def curHeaderBytes (h : CurHeader) : Option Bytes :=
  if h.previous.length = blockHashSize ∧ h.previousRoot.length = blockHashSize ∧
      h.utxoRoot.length = blockHashSize ∧ h.rangeProofRoot.length = blockHashSize ∧
      h.kernelRoot.length = blockHashSize
  then some (curHeaderBytesU h) else none

/-- Model of current-era `BlockHeader.Read`. -/
def curHeaderRead (s : Bytes) : Option (CurHeader × Bytes) :=
  match pU16 s with
  | none => none
  | some (v, s1) =>
    match pU64 s1 with
    | none => none
    | some (ht, s2) =>
      match pI64 s2 with
      | none => none
      | some (ts, s3) =>
        match pBytes blockHashSize s3 with
        | none => none
        | some (prev, s4) =>
          match pBytes blockHashSize s4 with
          | none => none
          | some (proot, s5) =>
            match pBytes blockHashSize s5 with
            | none => none
            | some (uroot, s6) =>
              match pBytes blockHashSize s6 with
              | none => none
              | some (rroot, s7) =>
                match pBytes blockHashSize s7 with
                | none => none
                | some (kroot, s8) =>
                  match pBytes secretKeySize s8 with
                  | none => none
                  | some (tko, s9) =>
                    match pU64 s9 with
                    | none => none
                    | some (omm, s10) =>
                      match pU64 s10 with
                      | none => none
                      | some (kmm, s11) =>
                        match pU64 s11 with
                        | none => none
                        | some (td, s12) =>
                          match pU32 s12 with
                          | none => none
                          | some (sd, s13) =>
                            match pU64 s13 with
                            | none => none
                            | some (nc, s14) =>
                              match Proof.read s14 with
                              | none => none
                              | some (pw, s15) =>
                                some (⟨v, ht, ts, prev, proot, uroot, rroot,
                                  kroot, tko, omm, kmm, td, sd, nc, pw⟩, s15)

/-- Current-era `Block`. -/
structure CurBlock where
  header : CurHeader
  inputs : List CurInput
  outputs : List CurOutput
  kernels : List CurKernel
deriving Repr, DecidableEq

/-- Hash of a serialised input (`blake2b.Sum256(input.Bytes())`). -/
def curInputHash (blake : Bytes → Bytes) (i : CurInput) : Bytes :=
  blake (curInputBytes i)

/-- Hash of a serialised output (`blake2b.Sum256(o.BytesWithoutProof())`). -/
def curOutputHash (blake : Bytes → Bytes) (o : CurOutput) : Bytes :=
  blake (curOutputBytesWithoutProof o)

/-- Hash of a serialised kernel (`blake2b.Sum256(k.Bytes())`). -/
def curKernelHash (blake : Bytes → Bytes) (k : CurKernel) : Bytes :=
  blake (curKernelBytes k)

/-- `InputList.Less`: order inputs by `bytes.Compare` of their hashes. -/
def curInputLt (blake : Bytes → Bytes) (a b : CurInput) : Bool :=
  bytesLt (curInputHash blake a) (curInputHash blake b)

/-- `OutputList.Less`: order outputs by `bytes.Compare` of their hashes. -/
def curOutputLt (blake : Bytes → Bytes) (a b : CurOutput) : Bool :=
  bytesLt (curOutputHash blake a) (curOutputHash blake b)

/-- `TxKernelList.Less`: order kernels by `bytes.Compare` of their hashes. -/
def curKernelLt (blake : Bytes → Bytes) (a b : CurKernel) : Bool :=
  bytesLt (curKernelHash blake a) (curKernelHash blake b)

/-- The block with its three sequences sorted, as the three `sort.Sort`
calls in `Block.Bytes` leave them. -/
def curBlockSorted (blake : Bytes → Bytes) (b : CurBlock) : CurBlock :=
  { b with inputs := goSort (curInputLt blake) b.inputs,
           outputs := goSort (curOutputLt blake) b.outputs,
           kernels := goSort (curKernelLt blake) b.kernels }

/-- The post-header byte stream of `Block.Bytes` for sequences taken in
their given order: the three `uint64` counts, then the serialized inputs,
outputs and kernels. -/
def curBlockBody (b : CurBlock) : Bytes :=
  beBytes 8 b.inputs.length ++ beBytes 8 b.outputs.length ++
    beBytes 8 b.kernels.length ++ b.inputs.flatMap curInputBytes ++
    b.outputs.flatMap curOutputBytes ++ b.kernels.flatMap curKernelBytes

/-- Model of current-era `Block.Bytes`: header bytes, then counts, then
the three sequences after the in-place sorts (the counts are written
before sorting, but sorting preserves lengths). -/
def curBlockBytes (blake : Bytes → Bytes) (b : CurBlock) : Option Bytes :=
  (curHeaderBytes b.header).map (fun hb => hb ++ curBlockBody (curBlockSorted blake b))

/-- Model of current-era `Block.Read`: header, three counts (each
rejected above 1000000), then the three sequences — with no ordering
check of any kind. -/
def curBlockRead (s : Bytes) : Option (CurBlock × Bytes) :=
  match curHeaderRead s with
  | none => none
  | some (h, s1) =>
    match pU64 s1 with
    | none => none
    | some (nin, s2) =>
      match pU64 s2 with
      | none => none
      | some (nout, s3) =>
        match pU64 s3 with
        | none => none
        | some (nker, s4) =>
          if 1000000 < nin ∨ 1000000 < nout ∨ 1000000 < nker then none
          else
            match pCount curInputRead nin s4 with
            | none => none
            | some (ins, s5) =>
              match pCount curOutputRead nout s5 with
              | none => none
              | some (outs, s6) =>
                match pCount curKernelRead nker s6 with
                | none => none
                | some (kers, s7) => some (⟨h, ins, outs, kers⟩, s7)

/-- Model of `Block.verifySorted`: `sort.IsSorted` on the three
sequences (adjacent-pair check), only ever called from `Block.Validate`. -/
def verifySorted (blake : Bytes → Bytes) (b : CurBlock) : Bool :=
  goIsSorted (curInputLt blake) b.inputs &&
    goIsSorted (curOutputLt blake) b.outputs &&
    goIsSorted (curKernelLt blake) b.kernels

def wfCurInput (i : CurInput) : Prop :=
  i.features < 256 ∧ i.commit.length = pedersenCommitmentSize

def wfCurOutput (o : CurOutput) : Prop :=
  o.features < 256 ∧ o.commit.length = pedersenCommitmentSize ∧
    o.rangeProof.length ≤ maxProofSize

def wfCurKernel (k : CurKernel) : Prop :=
  k.features < 256 ∧ k.fee < 2 ^ 64 ∧ k.lockHeight < 2 ^ 64 ∧
    k.excess.length = pedersenCommitmentSize ∧ k.excessSig.length = 64

def wfProof (p : Proof) : Prop :=
  1 ≤ p.edgeBits ∧ p.edgeBits ≤ 64 ∧ p.nonces.length = proofSize ∧
    (∀ n ∈ p.nonces, n < 2 ^ p.edgeBits) ∧ (∀ n ∈ p.nonces, n < 2 ^ 32)

def wfCurHeader (h : CurHeader) : Prop :=
  h.version < 2 ^ 16 ∧ h.height < 2 ^ 64 ∧
    -(2 ^ 63) ≤ h.timestamp ∧ h.timestamp < 2 ^ 63 ∧
    h.previous.length = blockHashSize ∧ h.previousRoot.length = blockHashSize ∧
    h.utxoRoot.length = blockHashSize ∧ h.rangeProofRoot.length = blockHashSize ∧
    h.kernelRoot.length = blockHashSize ∧ h.totalKernelOffset.length = secretKeySize ∧
    h.outputMmrSize < 2 ^ 64 ∧ h.kernelMmrSize < 2 ^ 64 ∧
    h.totalDifficulty < 2 ^ 64 ∧ h.scalingDifficulty < 2 ^ 32 ∧
    h.nonce < 2 ^ 64 ∧ wfProof h.pow

/-- Well-formedness needed for the current-era block codec; note it
imposes NO ordering requirement on the three sequences. -/
def wfCurBlock (b : CurBlock) : Prop :=
  wfCurHeader b.header ∧
    b.inputs.length ≤ 1000000 ∧ b.outputs.length ≤ 1000000 ∧
    b.kernels.length ≤ 1000000 ∧
    (∀ i ∈ b.inputs, wfCurInput i) ∧ (∀ o ∈ b.outputs, wfCurOutput o) ∧
    (∀ k ∈ b.kernels, wfCurKernel k)

instance (i : CurInput) : Decidable (wfCurInput i) := by
  unfold wfCurInput; infer_instance

instance (o : CurOutput) : Decidable (wfCurOutput o) := by
  unfold wfCurOutput; infer_instance

instance (k : CurKernel) : Decidable (wfCurKernel k) := by
  unfold wfCurKernel; infer_instance

instance (p : Proof) : Decidable (wfProof p) := by
  unfold wfProof; infer_instance

instance (h : CurHeader) : Decidable (wfCurHeader h) := by
  unfold wfCurHeader; infer_instance

instance (b : CurBlock) : Decidable (wfCurBlock b) := by
  unfold wfCurBlock; infer_instance

theorem curInputRead_append {i : CurInput} (hwf : wfCurInput i) (rest : Bytes) :
    curInputRead (curInputBytes i ++ rest) = some (i, rest) := by
  obtain ⟨f, c⟩ := i
  obtain ⟨h1, h2⟩ := hwf
  simp only [curInputBytes, List.append_assoc, curInputRead,
    pU8_append h1, pBytes_append h2]

theorem curOutputRead_append {o : CurOutput} (hwf : wfCurOutput o) (rest : Bytes) :
    curOutputRead (curOutputBytes o ++ rest) = some (o, rest) := by
  obtain ⟨f, c, pr⟩ := o
  obtain ⟨h1, h2, h3⟩ := hwf
  have h3' : pr.length ≤ maxProofSize := h3
  have hmp : maxProofSize < 2 ^ 64 := by decide
  simp only [curOutputBytes, curOutputBytesWithoutProof, List.append_assoc,
    curOutputRead, pU8_append h1, pBytes_append h2,
    pU64_append (show pr.length < 2 ^ 64 by omega)]
  rw [if_neg (show ¬ maxProofSize < pr.length by omega)]
  simp only [pBytes_append (rfl : pr.length = pr.length)]

theorem curKernelRead_append {k : CurKernel} (hwf : wfCurKernel k) (rest : Bytes) :
    curKernelRead (curKernelBytes k ++ rest) = some (k, rest) := by
  obtain ⟨f, fee, lock, ex, sg⟩ := k
  obtain ⟨h1, h2, h3, h4, h5⟩ := hwf
  simp only [curKernelBytes, List.append_assoc, curKernelRead,
    pU8_append h1, pU64_append h2, pU64_append h3,
    pBytes_append h4, pBytes_append h5]

theorem curHeaderRead_append {h : CurHeader} (hwf : wfCurHeader h) (rest : Bytes) :
    curHeaderRead (curHeaderBytesU h ++ rest) = some (h, rest) := by
  obtain ⟨v, ht, ts, prev, proot, uroot, rroot, kroot, tko, omm, kmm, td, sd, nc, pw⟩ := h
  obtain ⟨h1, h2, h3, h4, h5, h6, h7, h8, h9, h10, h11, h12, h13, h14, h15,
    hp1, hp2, hp3, hp4, hp5⟩ := hwf
  simp only [curHeaderBytesU, List.append_assoc, curHeaderRead,
    pU16_append h1, pU64_append h2, pI64_append h3 h4,
    pBytes_append h5, pBytes_append h6, pBytes_append h7, pBytes_append h8,
    pBytes_append h9, pBytes_append h10,
    pU64_append h11, pU64_append h12, pU64_append h13, pU32_append h14,
    pU64_append h15, proofBytes_read ⟨pw.edgeBits, pw.nonces⟩ hp1 hp2 hp3 hp4 hp5]

theorem curBlockRead_raw {b : CurBlock} (hwf : wfCurBlock b) (rest : Bytes) :
    curBlockRead (curHeaderBytesU b.header ++ curBlockBody b ++ rest)
      = some (b, rest) := by
  obtain ⟨h, ins, outs, kers⟩ := b
  obtain ⟨hh, hn1, hn2, hn3, hi, ho, hk⟩ := hwf
  have hn1' : ins.length ≤ 1000000 := hn1
  have hn2' : outs.length ≤ 1000000 := hn2
  have hn3' : kers.length ≤ 1000000 := hn3
  have hi' : ∀ i ∈ ins, wfCurInput i := hi
  have ho' : ∀ o ∈ outs, wfCurOutput o := ho
  have hk' : ∀ k ∈ kers, wfCurKernel k := hk
  have hh' : wfCurHeader h := hh
  simp only [curBlockBody, List.append_assoc, curBlockRead,
    curHeaderRead_append hh',
    pU64_append (show ins.length < 2 ^ 64 by omega),
    pU64_append (show outs.length < 2 ^ 64 by omega),
    pU64_append (show kers.length < 2 ^ 64 by omega),
    pCount_append ins (fun a ha r => curInputRead_append (hi' a ha) r),
    pCount_append outs (fun a ha r => curOutputRead_append (ho' a ha) r),
    pCount_append kers (fun a ha r => curKernelRead_append (hk' a ha) r)]
  rw [if_neg (by omega)]

/-- C3 (amended): for every hash function and every well-formed block
(no ordering assumed), `Block.Bytes` sorts the three sequences in place
and emits them in ascending order of their hashes — the emitted
sequences are permutations of the originals and pass `verifySorted` —
but `Block.Read` performs no ordering check at all: it accepts the
sequences in whatever order they appear on the wire and returns them
as-is (ordering is only checked by `Block.Validate` via
`verifySorted`). -/
theorem c3_block_ordering (blake : Bytes → Bytes) (b : CurBlock)
    (hwf : wfCurBlock b) :
    curBlockBytes blake b
        = some (curHeaderBytesU b.header ++ curBlockBody (curBlockSorted blake b)) ∧
    (curBlockSorted blake b).inputs.Perm b.inputs ∧
    (curBlockSorted blake b).outputs.Perm b.outputs ∧
    (curBlockSorted blake b).kernels.Perm b.kernels ∧
    verifySorted blake (curBlockSorted blake b) = true ∧
    curBlockRead (curHeaderBytesU b.header ++ curBlockBody b) = some (b, []) := by
  have hh := hwf.1
  refine ⟨?_, goSort_perm _ _, goSort_perm _ _, goSort_perm _ _, ?_, ?_⟩
  · rw [curBlockBytes, curHeaderBytes,
      if_pos ⟨hh.2.2.2.2.1, hh.2.2.2.2.2.1, hh.2.2.2.2.2.2.1,
        hh.2.2.2.2.2.2.2.1, hh.2.2.2.2.2.2.2.2.1⟩]
    rfl
  · have s1 : goIsSorted (curInputLt blake) (goSort (curInputLt blake) b.inputs) = true :=
      goIsSorted_of_pairwise (goSort_key_sorted (curInputHash blake) b.inputs)
    have s2 : goIsSorted (curOutputLt blake) (goSort (curOutputLt blake) b.outputs) = true :=
      goIsSorted_of_pairwise (goSort_key_sorted (curOutputHash blake) b.outputs)
    have s3 : goIsSorted (curKernelLt blake) (goSort (curKernelLt blake) b.kernels) = true :=
      goIsSorted_of_pairwise (goSort_key_sorted (curKernelHash blake) b.kernels)
    simp [verifySorted, curBlockSorted, s1, s2, s3]
  · simpa using curBlockRead_raw hwf []

/-- A concrete current-era header used by the block theorems below. -/
def c3ExHeader : CurHeader :=
  ⟨1, 0, 0, List.replicate 32 0, List.replicate 32 0, List.replicate 32 0,
   List.replicate 32 0, List.replicate 32 0, List.replicate 32 0,
   0, 0, 0, 1, 0, ⟨6, List.range 42⟩⟩

/-- A concrete current-era block with empty sequences. -/
def c3ExBlock : CurBlock := ⟨c3ExHeader, [], [], []⟩

/-- A concrete block whose two inputs are NOT in ascending hash order
under the identity hash function. -/
def c3BadBlock : CurBlock :=
  ⟨c3ExHeader,
   [⟨0, 9 :: List.replicate 32 0⟩, ⟨0, 3 :: List.replicate 32 0⟩], [], []⟩

/-- Witness for C3 (amended) at a concrete hash function and block. -/
theorem c3_witness :
    curBlockBytes (fun x => x) c3ExBlock
        = some (curHeaderBytesU c3ExBlock.header
            ++ curBlockBody (curBlockSorted (fun x => x) c3ExBlock)) ∧
    (curBlockSorted (fun x => x) c3ExBlock).inputs.Perm c3ExBlock.inputs ∧
    (curBlockSorted (fun x => x) c3ExBlock).outputs.Perm c3ExBlock.outputs ∧
    (curBlockSorted (fun x => x) c3ExBlock).kernels.Perm c3ExBlock.kernels ∧
    verifySorted (fun x => x) (curBlockSorted (fun x => x) c3ExBlock) = true ∧
    curBlockRead (curHeaderBytesU c3ExBlock.header ++ curBlockBody c3ExBlock)
        = some (c3ExBlock, []) :=
  c3_block_ordering (fun x => x) c3ExBlock (by decide)

/-- Counterexample for C3 as stated: a block whose inputs are not in
ascending hash order (under the identity hash) is decoded by
`Block.Read` without any error — the decode does not reject unsorted
sequences; `verifySorted` (called only from `Block.Validate`) is what
rejects them. -/
theorem c3_counterexample :
    curBlockRead (curHeaderBytesU c3BadBlock.header ++ curBlockBody c3BadBlock)
        = some (c3BadBlock, []) ∧
    verifySorted (fun x => x) c3BadBlock = false := by
  constructor
  · have hwf : wfCurBlock c3BadBlock := by decide
    simpa using curBlockRead_raw hwf []
  · decide

/-! ## Self-connection detection (`src/src/p2p/server.go` nonce pool and
the two `handByShake` variants).  `rand.Uint64` is a function
parameter. -/

def noncesCap : Nat := 100

/-- `nonceList`: a cursor and the pool of server nonces. -/
structure NonceList where
  idx : Nat
  list : List Nat
deriving Repr, DecidableEq

/-- Model of `nonceList.Init`: fill the pool with `noncesCap` values
from the random source; the cursor keeps its zero value. -/
def NonceList.init (rand : Nat → Nat) : NonceList :=
  ⟨0, (List.range noncesCap).map rand⟩

/-- Model of `nonceList.NextNonce`: advance the cursor modulo
`noncesCap` and return the pool entry there (`none` models the
out-of-range panic, impossible for pools of length `noncesCap`). -/
def NonceList.nextNonce (n : NonceList) : Option (Nat × NonceList) :=
  if h : (n.idx + 1) % noncesCap < n.list.length then
    some (n.list.get ⟨(n.idx + 1) % noncesCap, h⟩, ⟨(n.idx + 1) % noncesCap, n.list⟩)
  else none

/-- Model of `nonceList.Consist`: membership in the pool. -/
def NonceList.consist (n : NonceList) (nonce : Nat) : Bool :=
  n.list.contains nonce

/-- Model of the current-era `handByShake` (the accepting side of the
handshake): read a `Hand` message from the stream and reject it —
`errors.New("detect connection to ourselves by nonce")`, modelled as
`none` — when its nonce is in the server nonce pool; the subsequent
`Shake` reply is not modelled. -/
def handByShake (st : NonceList) (input : Bytes) : Option Hand :=
  match readMessage msgTypeHand input with
  | none => none
  | some (m, _) =>
    match m with
    | .hand h => if NonceList.consist st h.nonce then none else some h
    | _ => none

/-- Model of the older `handByShake` at the cited lines of
`src/src/p2p/handshake.go`: it reads the `Hand` and replies without any
nonce check (the check is an explicit `TODO` there). -/
def legacyHandByShake (input : Bytes) : Option Hand :=
  match readMessage msgTypeHand input with
  | none => none
  | some (m, _) =>
    match m with
    | .hand h => some h
    | _ => none

/-- C8 (amended): the server keeps a pool of exactly `noncesCap` (100)
nonces, fixed at startup; `NextNonce` (used by `shakeByHand` for every
emitted `Hand`) always returns a member of that pool and leaves the pool
unchanged, so every nonce this server has ever emitted stays detected by
`Consist`; and the current-era `handByShake` rejects an incoming `Hand`
exactly when its nonce is in the pool.  (The older `handByShake` at the
cited lines performs no nonce check; see the counterexample.) -/
theorem c8_self_connection (rand : Nat → Nat) (st : NonceList)
    (hlen : st.list.length = noncesCap) (h : Hand) (input : Bytes) :
    (NonceList.init rand).list.length = noncesCap ∧
    (∃ v st', NonceList.nextNonce st = some (v, st') ∧ v ∈ st.list ∧
      st'.list = st.list ∧ NonceList.consist st' v = true) ∧
    (∀ n, readMessage msgTypeHand input = some (.hand h, n) →
      NonceList.consist st h.nonce = true → handByShake st input = none) ∧
    (∀ n, readMessage msgTypeHand input = some (.hand h, n) →
      NonceList.consist st h.nonce = false → handByShake st input = some h) := by
  refine ⟨by simp [NonceList.init, noncesCap], ?_, ?_, ?_⟩
  · have hpos : (st.idx + 1) % noncesCap < st.list.length := by
      rw [hlen]
      exact Nat.mod_lt _ (by decide)
    refine ⟨st.list.get ⟨(st.idx + 1) % noncesCap, hpos⟩,
      ⟨(st.idx + 1) % noncesCap, st.list⟩, ?_, List.get_mem _ _ _, rfl, ?_⟩
    · rw [NonceList.nextNonce, dif_pos hpos]
    · exact List.elem_eq_true_of_mem (List.get_mem _ _ _)
  · intro n hr hc
    rw [handByShake, hr]
    simp only
    rw [if_pos hc]
  · intro n hr hc
    rw [handByShake, hr]
    simp only
    rw [if_neg (by simp [hc])]

/-- A concrete incoming `Hand` with nonce 5. -/
def c8Hand : Hand := ⟨1, 0, 5, 1, ⟨[127, 0, 0, 1], 13413⟩, ⟨[127, 0, 0, 1], 13413⟩, []⟩

/-- Witness for C8 (amended) at a concrete pool and `Hand`. -/
theorem c8_witness :
    (NonceList.init (fun i => i)).list.length = noncesCap ∧
    (∃ v st', NonceList.nextNonce ⟨0, List.range 100⟩ = some (v, st') ∧
      v ∈ (⟨0, List.range 100⟩ : NonceList).list ∧
      st'.list = (⟨0, List.range 100⟩ : NonceList).list ∧
      NonceList.consist st' v = true) ∧
    (∀ n, readMessage msgTypeHand ((writeMessage (Msg.hand c8Hand)).getD [])
        = some (.hand c8Hand, n) →
      NonceList.consist ⟨0, List.range 100⟩ c8Hand.nonce = true →
      handByShake ⟨0, List.range 100⟩ ((writeMessage (Msg.hand c8Hand)).getD []) = none) ∧
    (∀ n, readMessage msgTypeHand ((writeMessage (Msg.hand c8Hand)).getD [])
        = some (.hand c8Hand, n) →
      NonceList.consist ⟨0, List.range 100⟩ c8Hand.nonce = false →
      handByShake ⟨0, List.range 100⟩ ((writeMessage (Msg.hand c8Hand)).getD [])
        = some c8Hand) :=
  c8_self_connection (fun i => i) ⟨0, List.range 100⟩ (by decide) c8Hand
    ((writeMessage (Msg.hand c8Hand)).getD [])

/-- Counterexample for C8 as stated of the cited lines: the
`handByShake` at `src/src/p2p/handshake.go:513-539` performs no nonce
check, so it accepts a `Hand` whose nonce is in the server's pool
instead of rejecting it. -/
theorem c8_counterexample :
    ∃ (st : NonceList) (h : Hand) (input : Bytes),
      NonceList.consist st h.nonce = true ∧ legacyHandByShake input = some h :=
  ⟨⟨0, [5]⟩, c8Hand, (writeMessage (Msg.hand c8Hand)).getD [], by decide, by decide⟩

/-! ## Peer pool (`src/src/p2p/pool.go`).  `PeersTable` and
`ConnectedPeers` hold pointers to shared `peerInfo` records; the model
uses an explicit heap (`infos`, keyed by reference) and the two tables
map addresses to references.  `peerInfo.Peer.Close()` is modelled by the
`connClosed` flag. -/

inductive PeerStatus where
  | psNew
  | psConnected
  | psBanned
  | psDisconnected
  | psFailedConn
deriving Repr, DecidableEq

/-- The `peerInfo` fields that `Ban` and `Peers` touch. -/
structure PeerInfo where
  status : PeerStatus
  connClosed : Bool
  capabilities : Nat
deriving Repr, DecidableEq

/-- The `peersPool` tables. -/
structure PeersPool where
  infos : List (Nat × PeerInfo)
  peersTable : List (String × Nat)
  connectedPeers : List (String × Nat)
  bannedPeers : List String
deriving Repr, DecidableEq

/-- Map lookup (`pp.PeersTable[addr]`). -/
def lookupRef : List (String × Nat) → String → Option Nat
  | [], _ => none
  | e :: rest, addr => if e.1 = addr then some e.2 else lookupRef rest addr

/-- Dereference a shared `peerInfo` pointer. -/
def findInfo : List (Nat × PeerInfo) → Nat → Option PeerInfo
  | [], _ => none
  | e :: rest, ref => if e.1 = ref then some e.2 else findInfo rest ref

/-- Write through a shared `peerInfo` pointer. -/
def updateInfo (infos : List (Nat × PeerInfo)) (ref : Nat)
    (f : PeerInfo → PeerInfo) : List (Nat × PeerInfo) :=
  infos.map (fun e => if e.1 = ref then (e.1, f e.2) else e)

/-- Model of `peersPool.Ban`: look the address up in `PeersTable` (plain
return when absent), mark the shared record banned and close its
connection, add the address to `BannedPeers`, and delete it from
`PeersTable` — and from nowhere else. -/
def ban (pp : PeersPool) (addr : String) : PeersPool :=
  match lookupRef pp.peersTable addr with
  | none => pp
  | some ref =>
    { pp with
      infos := updateInfo pp.infos ref
        (fun i => { i with status := .psBanned, connClosed := true }),
      bannedPeers := addr :: pp.bannedPeers,
      peersTable := pp.peersTable.filter (fun e => !(e.1 == addr)) }

/-- The `Peers` loop filter: skip banned and failed-connection peers and
those lacking the requested capabilities.  (A dangling reference cannot
arise in Go, where the table holds the pointer itself; the model skips
such entries.) -/
def goodPeer (pp : PeersPool) (caps : Nat) (e : String × Nat) : Bool :=
  match findInfo pp.infos e.2 with
  | none => false
  | some i =>
    !(i.status == PeerStatus.psBanned) && !(i.status == PeerStatus.psFailedConn) &&
      ((i.capabilities &&& caps) == caps)

/-- Model of `peersPool.Peers`: the addresses of peers surviving the
filter, stopping once `MaxPeerAddrs` are collected (address
re-resolution, which succeeds for every address `Add` admitted, is the
identity here). -/
def peersResponse (pp : PeersPool) (caps : Nat) : List String :=
  ((pp.peersTable.filter (goodPeer pp caps)).map (fun e => e.1)).take maxPeerAddrs

theorem findInfo_updateInfo {infos : List (Nat × PeerInfo)} {ref : Nat} {info : PeerInfo}
    (f : PeerInfo → PeerInfo) (h : findInfo infos ref = some info) :
    findInfo (updateInfo infos ref f) ref = some (f info) := by
  induction infos with
  | nil => exact absurd h (by simp [findInfo])
  | cons e rest ih =>
    by_cases he : e.1 = ref
    · rw [findInfo, if_pos he] at h
      simp only [Option.some.injEq] at h
      simp only [updateInfo, List.map_cons, if_pos he, findInfo]
      rw [h]
    · rw [findInfo, if_neg he] at h
      simp only [updateInfo, List.map_cons, if_neg he, findInfo]
      exact ih h

theorem lookupRef_erase (t : List (String × Nat)) (addr : String) :
    lookupRef (t.filter (fun e => !(e.1 == addr))) addr = none := by
  induction t with
  | nil => rfl
  | cons e rest ih =>
    by_cases he : e.1 = addr
    · simp only [List.filter_cons, he]
      simpa using ih
    · simp only [List.filter_cons]
      rw [if_pos (by simp [he])]
      rw [lookupRef, if_neg he]
      exact ih

theorem not_mem_peersResponse {pp : PeersPool} {addr : String}
    (h : ∀ e ∈ pp.peersTable, e.1 ≠ addr) (caps : Nat) :
    addr ∉ peersResponse pp caps := by
  intro hmem
  rw [peersResponse] at hmem
  have h1 := List.take_subset _ _ hmem
  obtain ⟨e, he, heq⟩ := List.mem_map.mp h1
  exact h e (List.mem_of_mem_filter he) heq

/-- C9 (amended): for an address in the peer table, `Ban` marks the
shared `peerInfo` record banned and closes its connection, adds the
address to the banned set and deletes it from `PeersTable`, after which
the address never appears in a `Peers` response (the response is drawn
from `PeersTable` alone); but `Ban` does NOT remove the address from
`ConnectedPeers` — that table is left exactly as it was. -/
theorem c9_ban_semantics (pp : PeersPool) (addr : String) (ref : Nat) (info : PeerInfo)
    (href : lookupRef pp.peersTable addr = some ref)
    (hinfo : findInfo pp.infos ref = some info) (caps : Nat) :
    findInfo (ban pp addr).infos ref
        = some { info with status := .psBanned, connClosed := true } ∧
    addr ∈ (ban pp addr).bannedPeers ∧
    lookupRef (ban pp addr).peersTable addr = none ∧
    (ban pp addr).connectedPeers = pp.connectedPeers ∧
    addr ∉ peersResponse (ban pp addr) caps := by
  have hb : ban pp addr = { pp with
      infos := updateInfo pp.infos ref
        (fun i => { i with status := .psBanned, connClosed := true }),
      bannedPeers := addr :: pp.bannedPeers,
      peersTable := pp.peersTable.filter (fun e => !(e.1 == addr)) } := by
    rw [ban, href]
  refine ⟨?_, ?_, ?_, ?_, ?_⟩
  · rw [hb]
    exact findInfo_updateInfo
      (fun i => { i with status := .psBanned, connClosed := true }) hinfo
  · rw [hb]
    exact List.mem_cons_self addr _
  · rw [hb]
    exact lookupRef_erase _ _
  · rw [hb]
  · apply not_mem_peersResponse
    intro e he
    rw [hb] at he
    have h2 := (List.mem_filter.mp he).2
    simpa using h2

/-- A concrete pool: address "a" is connected, "b" is known but new. -/
def c9Pool : PeersPool :=
  ⟨[(0, ⟨.psConnected, false, 0⟩), (1, ⟨.psNew, false, 0⟩)],
   [("a", 0), ("b", 1)], [("a", 0)], []⟩

/-- Witness for C9 (amended) on a concrete pool. -/
theorem c9_witness :
    findInfo (ban c9Pool "a").infos 0
        = some { (⟨.psConnected, false, 0⟩ : PeerInfo) with
            status := .psBanned, connClosed := true } ∧
    "a" ∈ (ban c9Pool "a").bannedPeers ∧
    lookupRef (ban c9Pool "a").peersTable "a" = none ∧
    (ban c9Pool "a").connectedPeers = c9Pool.connectedPeers ∧
    "a" ∉ peersResponse (ban c9Pool "a") 0 :=
  c9_ban_semantics c9Pool "a" 0 ⟨.psConnected, false, 0⟩ (by decide) (by decide) 0

/-- Counterexample for C9 as stated: after `Ban("a")` the address "a" is
gone from `PeersTable` and marked banned, yet its entry is still present
in `ConnectedPeers`, which `Ban` never touches. -/
theorem c9_counterexample :
    (ban c9Pool "a").connectedPeers = [("a", 0)] ∧
    lookupRef (ban c9Pool "a").peersTable "a" = none ∧
    findInfo (ban c9Pool "a").infos 0 = some ⟨.psBanned, true, 0⟩ := by
  refine ⟨?_, ?_, ?_⟩ <;> decide

end Gringo
